import Mathlib

/-!
# Caption-Cleanup-Studio: verification of the caption-editing engine

Shallow embedding of the caption engine: the `Caption` data model, the
SRT/VTT codec, millisecond/timecode conversion, per-segment and
cross-segment validation, the pure segment-store operations, the
undo/redo history state machine, and the active-segment locator.

JavaScript numbers are embedded as `Int` (all observed uses are integer
milliseconds) and the floating-point CPS/duration arithmetic as exact
rationals `ℚ`; JavaScript string values are Lean `String`s manipulated
through their character lists (`String.prototype.length` counts UTF-16
units, modelled as the character count, which agrees outside surrogate
pairs).  Fallible operations return `Option`.
-/

set_option maxHeartbeats 1000000
set_option maxRecDepth 100000

-- ============================================================================
-- DATA MODEL (src/unnamed/part_002, `Caption`, `CaptionValidation`)
-- ============================================================================

/-- Caption object representing a single subtitle entry: generated `id`,
`start`/`end` in milliseconds, text content.  (`end` is a Lean keyword, hence
the guillemets.) -/
structure Caption where
  id : String
  start : Int
  «end» : Int
  text : String
deriving DecidableEq, Repr

/-- A patch for `updateCaption`: the TypeScript `Partial<Omit<Caption, 'id'>>`.
A field that is `none` is absent from the patch object and does not override. -/
structure CaptionPatch where
  start : Option Int := none
  «end» : Option Int := none
  text : Option String := none
deriving DecidableEq, Repr

/-- A draft caption for `addCaption`: the TypeScript `Omit<Caption, 'id'>`. -/
structure CaptionDraft where
  start : Int
  «end» : Int
  text : String
deriving DecidableEq, Repr

-- ============================================================================
-- GENERIC LIST SPLIT/JOIN (JavaScript `String.split` / `Array.join`)
-- ============================================================================

/-- Prepend an element to the first chunk (auxiliary for `splitBy`). -/
def consHead (a : α) : List (List α) → List (List α)
  | [] => [[a]]
  | b :: bs => (a :: b) :: bs

/-- JavaScript-style split: cut a list at every element satisfying `p`,
keeping empty chunks (`"a,,b".split(',') = ["a","","b"]`, `"".split = [""]`). -/
def splitBy (p : α → Bool) : List α → List (List α)
  | [] => [[]]
  | a :: as => if p a then [] :: splitBy p as else consHead a (splitBy p as)

/-- JavaScript-style join: interleave `sep` between the chunks. -/
def joinWith (sep : List α) : List (List α) → List α
  | [] => []
  | [x] => x
  | x :: y :: xs => x ++ sep ++ joinWith sep (y :: xs)

-- ============================================================================
-- TIME CONVERSION (src/unnamed/part_002, `msToSrtTime`, `srtTimeToMs`)
-- ============================================================================

/-- Decimal digit characters of a natural number: `String(n)` in JavaScript. -/
def digitsN (n : Nat) : List Char := Nat.toDigits 10 n

/-- `String.prototype.padStart(width, '0')`: left-pad with zeros, never
truncating. -/
def padZero (width : Nat) (l : List Char) : List Char :=
  List.replicate (width - l.length) '0' ++ l

/-- The character list `HH:MM:SS<sep>mmm` of `msToSrtTime` (comma separator in
the source; the spec-modelled VTT renderer uses a period). -/
def renderTC (sep : Char) (ms : Nat) : List Char :=
  padZero 2 (digitsN (ms / 3600000)) ++ ':' ::
  (padZero 2 (digitsN (ms % 3600000 / 60000)) ++ ':' ::
  (padZero 2 (digitsN (ms % 60000 / 1000)) ++ sep ::
  padZero 3 (digitsN (ms % 1000))))

/-- Convert milliseconds to SRT time format `HH:MM:SS,mmm`
(hours/minutes/seconds by floor division, fields zero-padded, comma). -/
def msToSrtTime (ms : Nat) : String :=
  String.mk (renderTC ',' ms)

/-- Numeric value of a digit character (`parseInt` on a captured digit). -/
def digitVal (c : Char) : Nat := c.toNat - 48

/-- Attempt the regex `(\d{2}):(\d{2}):(\d{2})[,.](\d{3})` at the head of the
character list (a match may be followed by arbitrary trailing characters; the
source regex is unanchored). -/
def matchTCAt : List Char → Option (Nat × Nat × Nat × Nat)
  | a1 :: a2 :: x :: b1 :: b2 :: y :: c1 :: c2 :: z :: d1 :: d2 :: d3 :: _ =>
    if a1.isDigit && a2.isDigit && x == ':' && b1.isDigit && b2.isDigit && y == ':'
        && c1.isDigit && c2.isDigit && (z == ',' || z == '.')
        && d1.isDigit && d2.isDigit && d3.isDigit then
      some (10 * digitVal a1 + digitVal a2, 10 * digitVal b1 + digitVal b2,
            10 * digitVal c1 + digitVal c2,
            100 * digitVal d1 + 10 * digitVal d2 + digitVal d3)
    else none
  | _ => none

/-- Leftmost match of the unanchored timecode regex: try every start
position from the left, as `String.prototype.match` does. -/
def searchTC : List Char → Option (Nat × Nat × Nat × Nat)
  | [] => none
  | c :: cs =>
    match matchTCAt (c :: cs) with
    | some r => some r
    | none => searchTC cs

/-- Convert an SRT time string to milliseconds: find the first occurrence of
the timecode pattern anywhere in the string and combine its fields; `none`
models the thrown `Invalid SRT time format` error. -/
def srtTimeToMs (timeStr : String) : Option Nat :=
  (searchTC timeStr.data).map fun (h, m, s, mil) =>
    h * 3600000 + m * 60000 + s * 1000 + mil

/-- A whole string that is exactly a well-formed fixed-width timecode
`HH:MM:SS<sep>mmm` (two-digit hours, minutes, seconds, three-digit
milliseconds, comma or period separator), with its four field values.
Stated from the claim's words, for comparison with `srtTimeToMs`. -/
def timecodeFields (s : String) : Option (Nat × Nat × Nat × Nat) :=
  match s.data with
  | [a1, a2, x, b1, b2, y, c1, c2, z, d1, d2, d3] =>
    if a1.isDigit && a2.isDigit && x == ':' && b1.isDigit && b2.isDigit && y == ':'
        && c1.isDigit && c2.isDigit && (z == ',' || z == '.')
        && d1.isDigit && d2.isDigit && d3.isDigit then
      some (10 * digitVal a1 + digitVal a2, 10 * digitVal b1 + digitVal b2,
            10 * digitVal c1 + digitVal c2,
            100 * digitVal d1 + 10 * digitVal d2 + digitVal d3)
    else none
  | _ => none

/-- Parse a two-character zero-padded field back to its value. -/
def parse2 : List Char → Option Nat
  | [a, b] =>
    if a.isDigit && b.isDigit then some (10 * digitVal a + digitVal b) else none
  | _ => none

/-- Parse a three-character zero-padded field back to its value. -/
def parse3 : List Char → Option Nat
  | [a, b, c] =>
    if a.isDigit && b.isDigit && c.isDigit then
      some (100 * digitVal a + 10 * digitVal b + digitVal c)
    else none
  | _ => none

-- ============================================================================
-- ACTIVE-SEGMENT LOCATOR (src/components/video-player.tsx,
-- `findActiveCaptionIndex`)
-- ============================================================================

/-- The scanning loop of `findActiveCaptionIndex`, carrying the index of the
head of the remaining list. -/
def findActiveFrom (t : Int) : Nat → List Caption → Option Nat
  | _, [] => none
  | k, c :: cs =>
    if c.start ≤ t ∧ t < c.«end» then some k else findActiveFrom t (k + 1) cs

/-- Find the index of the active caption at a given time: the first `i` (in
display order) with `captions[i].start ≤ t < captions[i].end`, else `null`. -/
def findActiveCaptionIndex (captions : List Caption) (currentTimeMs : Int) : Option Nat :=
  findActiveFrom currentTimeMs 0 captions

-- ============================================================================
-- SEGMENT STORE (src/unnamed/part_002, `addCaption`, `updateCaption`,
-- `deleteCaption`)
-- ============================================================================

/-- The start-index normalization of `Array.prototype.splice`: a negative
index counts back from the end (floored at 0), a non-negative index is capped
at the length. -/
def spliceIndex (len : Nat) (index : Int) : Nat :=
  if index < 0 then ((len : Int) + index).toNat else min index.toNat len

/-- Add a new caption at a specific index via `splice(index, 0, caption)`.
The generated id `caption-${Date.now()}-${Math.random()}` is passed in as
`freshId` (the only non-determinism of the source function). -/
def addCaption (captions : List Caption) (index : Int) (newCaption : CaptionDraft)
    (freshId : String) : List Caption :=
  let caption : Caption :=
    { id := freshId, start := newCaption.start, «end» := newCaption.«end»,
      text := newCaption.text }
  let i := spliceIndex captions.length index
  captions.take i ++ caption :: captions.drop i

/-- Replace only the fields named in the patch of the matching segment (the
spread `{ ...cap, ...updates }`). -/
def applyPatch (cap : Caption) (updates : CaptionPatch) : Caption :=
  { id := cap.id, start := updates.start.getD cap.start,
    «end» := updates.«end».getD cap.«end», text := updates.text.getD cap.text }

/-- Update an existing caption by id: map over the collection, patching the
segments whose id matches. -/
def updateCaption (captions : List Caption) (id : String) (updates : CaptionPatch) :
    List Caption :=
  captions.map fun cap => if cap.id = id then applyPatch cap updates else cap

/-- Delete a caption by id: keep the segments whose id differs. -/
def deleteCaption (captions : List Caption) (id : String) : List Caption :=
  captions.filter fun cap => cap.id ≠ id

-- ============================================================================
-- HISTORY MANAGER (src/hooks/useHistory.ts, `useHistory`)
-- ============================================================================

/-- `MAX_HISTORY_SIZE = 50`: limit history to prevent memory issues. -/
def MAX_HISTORY_SIZE : Nat := 50

/-- The state held by the `useHistory` hook: the `past`/`present`/`future`
stacks plus the `isUndoRedoRef` suppression flag. -/
structure HistoryState (T : Type) where
  past : List T
  present : T
  future : List T
  isUndoRedo : Bool
deriving DecidableEq, Repr

/-- `setState` with a direct value: if the suppression flag is set, clear it
and change nothing; if the resolved value deep-equals the present
(`JSON.stringify` comparison, modelled as decidable equality), change
nothing; else push the present onto `past` (dropping the oldest entry past
the cap), clear `future`, and install the new present. -/
def setState [DecidableEq T] (newState : T) (s : HistoryState T) : HistoryState T :=
  if s.isUndoRedo then { s with isUndoRedo := false }
  else if newState = s.present then s
  else
    { past :=
        if (s.past ++ [s.present]).length > MAX_HISTORY_SIZE then
          (s.past ++ [s.present]).drop 1
        else s.past ++ [s.present],
      present := newState, future := [], isUndoRedo := s.isUndoRedo }

/-- `setState` with an updater function of the previous state. -/
def setStateFn [DecidableEq T] (f : T → T) (s : HistoryState T) : HistoryState T :=
  setState (f s.present) s

/-- `undo`: no-op when `past` is empty; else set the suppression flag, pop
the last `past` entry into `present` and push the prior present onto the
front of `future`. -/
def undo (s : HistoryState T) : HistoryState T :=
  match s.past.getLast? with
  | none => s
  | some newPresent =>
    { past := s.past.dropLast, present := newPresent,
      future := s.present :: s.future, isUndoRedo := true }

/-- `redo`: no-op when `future` is empty; else set the suppression flag,
shift the first `future` entry into `present` and push the prior present
onto `past`. -/
def redo (s : HistoryState T) : HistoryState T :=
  match s.future with
  | [] => s
  | f :: rest =>
    { past := s.past ++ [s.present], present := f, future := rest, isUndoRedo := true }

def canUndo (s : HistoryState T) : Bool := decide (s.past.length > 0)

def canRedo (s : HistoryState T) : Bool := decide (s.future.length > 0)

/-- `clear`: empty both stacks, keep the present. -/
def clearHistory (s : HistoryState T) : HistoryState T :=
  { s with past := [], future := [] }

-- ============================================================================
-- VALIDATOR (src/unnamed/part_002, `validateCaption`, `validateAllCaptions`)
-- ============================================================================

/-- `String.prototype.trimStart`: drop leading whitespace characters. -/
def trimStartChars (l : List Char) : List Char :=
  l.dropWhile Char.isWhitespace

/-- `String.prototype.trim`: drop leading and trailing whitespace. -/
def trimChars (l : List Char) : List Char :=
  ((l.dropWhile Char.isWhitespace).reverse.dropWhile Char.isWhitespace).reverse

/-- A validation issue.  The source pushes message strings; each constructor
stands for one push site and carries the numeric data embedded in the
message. -/
inductive VIssue where
  | startNotBeforeEnd (index : Nat)
  | negativeTime (index : Nat)
  | emptyText (index : Nat)
  | durationTooShort (index : Nat)
  | durationTooLong (index : Nat)
  | tooManyLines (index lineCount : Nat)
  | lineTooLong (index lineIndex lineLength : Nat)
  | cpsTooFast (index : Nat)
  | cpsFast (index : Nat)
  | cpsSlow (index : Nat)
  | overlap (pairIndex : Nat) (overlapMs : Int)
  | gapTooSmall (pairIndex : Nat) (gapMs : Int)
deriving DecidableEq, Repr

/-- Validation result. -/
structure CaptionValidation where
  isValid : Bool
  warnings : List VIssue
  errors : List VIssue
deriving DecidableEq, Repr

/-- `duration` in seconds: `(end - start) / 1000` as a rational (the source
computes it in floating point). -/
def captionDuration (caption : Caption) : ℚ :=
  ((caption.«end» : ℚ) - (caption.start : ℚ)) / 1000

/-- `caption.text.split('\n')`. -/
def captionLines (caption : Caption) : List (List Char) :=
  splitBy (fun ch => ch == '\n') caption.text.data

/-- `cps > bound` where `cps = duration > 0 ? chars / duration : Infinity`:
when the duration is not positive the comparison with `Infinity` is true. -/
def cpsAbove (chars : Nat) (dur bound : ℚ) : Prop :=
  (0 < dur ∧ (chars : ℚ) / dur > bound) ∨ dur ≤ 0

/-- `cps < bound` with the same `Infinity` convention: false for
non-positive durations. -/
def cpsBelow (chars : Nat) (dur bound : ℚ) : Prop :=
  0 < dur ∧ (chars : ℚ) / dur < bound

instance (chars : Nat) (dur bound : ℚ) : Decidable (cpsAbove chars dur bound) :=
  inferInstanceAs (Decidable (_ ∨ _))

instance (chars : Nat) (dur bound : ℚ) : Decidable (cpsBelow chars dur bound) :=
  inferInstanceAs (Decidable (_ ∧ _))

/-- The errors pushed by `validateCaption`, in push order: timing inversion,
negative time, too many lines, reading speed too fast. -/
def captionErrors (caption : Caption) (index : Nat) : List VIssue :=
  (if caption.start ≥ caption.«end» then [VIssue.startNotBeforeEnd index] else [])
  ++ (if caption.start < 0 ∨ caption.«end» < 0 then [VIssue.negativeTime index] else [])
  ++ (if (captionLines caption).length > 2 then
        [VIssue.tooManyLines index (captionLines caption).length] else [])
  ++ (if cpsAbove caption.text.length (captionDuration caption) 21 then
        [VIssue.cpsTooFast index] else [])

/-- The warnings pushed by `validateCaption`, in push order: empty text,
duration too short/long, line over 42 characters, reading speed fast
(`17 < cps ≤ 21`), reading speed slow (`cps < 12` with duration over 1s). -/
def captionWarnings (caption : Caption) (index : Nat) : List VIssue :=
  (if (trimChars caption.text.data).length = 0 then [VIssue.emptyText index] else [])
  ++ (if captionDuration caption < 1 then [VIssue.durationTooShort index] else [])
  ++ (if captionDuration caption > 6 then [VIssue.durationTooLong index] else [])
  ++ ((captionLines caption).enum.filterMap fun p =>
        if p.2.length > 42 then some (VIssue.lineTooLong index p.1 p.2.length) else none)
  ++ (if ¬ cpsAbove caption.text.length (captionDuration caption) 21
        ∧ cpsAbove caption.text.length (captionDuration caption) 17 then
        [VIssue.cpsFast index] else [])
  ++ (if ¬ cpsAbove caption.text.length (captionDuration caption) 21
        ∧ ¬ cpsAbove caption.text.length (captionDuration caption) 17
        ∧ cpsBelow caption.text.length (captionDuration caption) 12
        ∧ captionDuration caption > 1 then
        [VIssue.cpsSlow index] else [])

/-- Validate a single caption for common issues. -/
def validateCaption (caption : Caption) (index : Nat) : CaptionValidation :=
  { isValid := (captionErrors caption index).isEmpty,
    warnings := captionWarnings caption index,
    errors := captionErrors caption index }

/-- Minimum recommended gap between captions: 0.1s. -/
def MIN_GAP_MS : Int := 100

/-- The overlap errors of the adjacent-pair loop, in display order: an Error
with the overlap magnitude whenever `current.end > next.start`. -/
def crossErrors (captions : List Caption) : List VIssue :=
  (captions.zip captions.tail).enum.filterMap fun p =>
    if p.2.2.start < p.2.1.«end» then
      some (VIssue.overlap p.1 (p.2.1.«end» - p.2.2.start))
    else none

/-- The gap warnings of the adjacent-pair loop: when there is no overlap but
the gap is under `MIN_GAP_MS`. -/
def crossWarnings (captions : List Caption) : List VIssue :=
  (captions.zip captions.tail).enum.filterMap fun p =>
    if ¬ p.2.2.start < p.2.1.«end» ∧ p.2.2.start - p.2.1.«end» < MIN_GAP_MS then
      some (VIssue.gapTooSmall p.1 (p.2.2.start - p.2.1.«end»))
    else none

/-- Validate all captions: individual validation of every caption in display
order, then the adjacent-pair timing checks; `isValid` iff no errors from
either layer. -/
def validateAllCaptions (captions : List Caption) : CaptionValidation :=
  { isValid := ((captions.enum.map fun p => captionErrors p.2 p.1).join
      ++ crossErrors captions).isEmpty,
    warnings := (captions.enum.map fun p => captionWarnings p.2 p.1).join
      ++ crossWarnings captions,
    errors := (captions.enum.map fun p => captionErrors p.2 p.1).join
      ++ crossErrors captions }

-- ============================================================================
-- FORMAT CODEC (src/unnamed/part_002, `parseCaptions`, `serializeCaptions`;
-- the `subtitle` package's `parseSync`/`stringifySync` are modelled from the
-- spec)
-- ============================================================================

/-- The newline predicate used by the JavaScript `split('\n')` calls. -/
def isNl (ch : Char) : Bool := ch == '\n'

/-- The input clean-up of `parseCaptions`: split into lines, strip leading
whitespace from each line, re-join, trim the whole. -/
def normalizeChars (l : List Char) : List Char :=
  trimChars (joinWith ['\n'] ((splitBy isNl l).map trimStartChars))

/-- Modelled from the spec: the timestamp line `start --> end` of a cue, with
fixed-width zero-padded timecode fields (the `subtitle` package's
serializer is not part of the repository). -/
def tsLineChars (sep : Char) (startMs endMs : Nat) : List Char :=
  renderTC sep startMs ++ " --> ".data ++ renderTC sep endMs

/-- Modelled from the spec: an SRT cue block — index line, timestamp line
with comma separators, text lines. -/
def srtCueBlock (idx : Nat) (c : Caption) : List (List Char) :=
  digitsN idx :: tsLineChars ',' c.start.toNat c.«end».toNat :: splitBy isNl c.text.data

/-- Modelled from the spec: the SRT cue blocks of a collection, numbered
sequentially from `i`. -/
def srtBlocks : Nat → List Caption → List (List (List Char))
  | _, [] => []
  | i, c :: cs => srtCueBlock i c :: srtBlocks (i + 1) cs

/-- Modelled from the spec: a VTT cue block — timestamp line with period
separators, text lines (no index line). -/
def vttCueBlock (c : Caption) : List (List Char) :=
  tsLineChars '.' c.start.toNat c.«end».toNat :: splitBy isNl c.text.data

/-- Output format of `serializeCaptions`. -/
inductive CaptionFormat where
  | SRT
  | VTT
deriving DecidableEq, Repr

/-- Modelled from the spec: the blocks of a serialized collection — for VTT,
a `WEBVTT` header block precedes the cues. -/
def formatBlocks (captions : List Caption) : CaptionFormat → List (List (List Char))
  | CaptionFormat.SRT => srtBlocks 1 captions
  | CaptionFormat.VTT => [["WEBVTT".data]] ++ captions.map vttCueBlock

/-- Convert Caption objects back to SRT or VTT text.  The `stringifySync`
call is modelled from the spec: cue blocks in the target format's
conventions, separated by blank lines. -/
def serializeCaptions (captions : List Caption) (format : CaptionFormat) : String :=
  String.mk (joinWith ['\n'] (joinWith [[]] (formatBlocks captions format)))

/-- Modelled from the spec: parse a cue's timestamp line — a fixed-width
timecode, the ` --> ` arrow, a second fixed-width timecode, nothing else. -/
def parseTsLineChars (l : List Char) : Option (Nat × Nat) :=
  match matchTCAt l with
  | none => none
  | some (h1, m1, s1, mil1) =>
    if (l.drop 12).take 5 = " --> ".data then
      match matchTCAt (l.drop 17) with
      | none => none
      | some (h2, m2, s2, mil2) =>
        if l.length = 29 then
          some (h1 * 3600000 + m1 * 60000 + s1 * 1000 + mil1,
                h2 * 3600000 + m2 * 60000 + s2 * 1000 + mil2)
        else none
    else none

/-- An optional/ignored SRT index line: nonempty and all digits. -/
def isDigitLine (l : List Char) : Bool := !l.isEmpty && l.all Char.isDigit

/-- Modelled from the spec: a non-cue header/metadata block (the `WEBVTT`
header), ignored by the parser. -/
def isMetaBlock (b : List (List Char)) : Bool :=
  match b with
  | l :: _ => decide (l.take 6 = "WEBVTT".data)
  | [] => true

/-- Modelled from the spec: parse one cue block — skip an optional index
line, read the timestamp line, take the remaining lines (at least one) as
the text. -/
def parseCueBlock (b : List (List Char)) : Option (Nat × Nat × List Char) :=
  let b1 := match b with
    | l :: rest => if isDigitLine l then rest else b
    | [] => b
  match b1 with
  | ts :: textLines =>
    match parseTsLineChars ts, textLines with
    | some (s, e), _ :: _ => some (s, e, joinWith ['\n'] textLines)
    | _, _ => none
  | [] => none

/-- Modelled from the spec: `parseSync` — split into lines, group into
blocks separated by blank lines, drop metadata blocks, parse every cue
block (failing with `FormatError` if any is malformed or no cue blocks are
found). -/
def parseSyncModel (l : List Char) : Option (List (Nat × Nat × List Char)) :=
  let lines := splitBy isNl l
  let blocks := (splitBy (fun ln => ln.isEmpty) lines).filter (fun b => !b.isEmpty)
  let cueBlocks := blocks.filter (fun b => !isMetaBlock b)
  match cueBlocks.mapM parseCueBlock with
  | none => none
  | some cues => if cues.isEmpty then none else some cues

/-- Parse SRT or VTT caption text into Caption objects: clean up the input
(leading whitespace per line, outer trim), parse the cues, and attach a
generated unique id `caption-${Date.now()}-${index}` to each — `now` stands
for the `Date.now()` call, the only non-determinism.  `none` models the
thrown parse error. -/
def parseCaptions (now : Nat) (captionText : String) : Option (List Caption) :=
  (parseSyncModel (normalizeChars captionText.data)).map fun cues =>
    cues.enum.map fun p =>
      { id := "caption-" ++ Nat.repr now ++ "-" ++ Nat.repr p.1,
        start := (p.2.1 : Int), «end» := (p.2.2.1 : Int), text := String.mk p.2.2.2 }

/-- The semantic content of a segment: `start`, `end`, `text` (ids are not
part of the round-trip guarantee). -/
def stripId (c : Caption) : Int × Int × String := (c.start, c.«end», c.text)

/-- A text line that survives the wire format: nonempty, no leading
whitespace (the parser strips it), no trailing whitespace (the outer trim
strips it at the end of the file). -/
def goodLine (l : List Char) : Bool :=
  !l.isEmpty && l.head?.all (fun ch => !ch.isWhitespace)
    && l.getLast?.all (fun ch => !ch.isWhitespace)

/-- Wire-safe caption text: every line (blank-line cue separators being the
format's reserved separator, a line of the text must not be empty) is a
`goodLine`. -/
def goodText (t : String) : Prop :=
  ∀ l ∈ splitBy isNl t.data, goodLine l = true

/-- A line as it appears in serialized output: nonempty, newline-free, no
leading or trailing whitespace. -/
def goodLineP (l : List Char) : Prop :=
  l ≠ [] ∧ '\n' ∉ l ∧
  (∀ c, l.head? = some c → c.isWhitespace = false) ∧
  (∀ c, l.getLast? = some c → c.isWhitespace = false)

/-- A serialized block: nonempty, all lines good. -/
def goodBlock (b : List (List Char)) : Prop := b ≠ [] ∧ ∀ ln ∈ b, goodLineP ln

/-- The bound hypotheses the round-trip needs, per caption. -/
def wireSafe (c : Caption) : Prop :=
  0 ≤ c.start ∧ c.start < c.«end» ∧ c.«end» < 360000000 ∧ goodText c.text

instance (t : String) : Decidable (goodText t) :=
  inferInstanceAs (Decidable (∀ l ∈ splitBy isNl t.data, goodLine l = true))

instance (c : Caption) : Decidable (wireSafe c) :=
  inferInstanceAs (Decidable (_ ∧ _ ∧ _ ∧ _))

-- ============================================================================
-- THEOREMS
-- ============================================================================

theorem consHead_ne_nil (a : α) (B : List (List α)) : consHead a B ≠ [] := by
  cases B <;> simp [consHead]

theorem splitBy_ne_nil (p : α → Bool) (l : List α) : splitBy p l ≠ [] := by
  cases l with
  | nil => simp [splitBy]
  | cons a as =>
    simp only [splitBy]
    split
    · simp
    · exact consHead_ne_nil a _

theorem joinWith_cons_cons (sep : List α) (a : α) (b : List α) (bs : List (List α)) :
    joinWith sep ((a :: b) :: bs) = a :: joinWith sep (b :: bs) := by
  cases bs with
  | nil => rfl
  | cons z zs => simp [joinWith]

/-- Joining the chunks of a split restores the original list, provided `p`
holds exactly at the separator element `c`. -/
theorem joinWith_splitBy (p : α → Bool) (c : α) (hp : ∀ a, p a = true ↔ a = c) :
    ∀ l : List α, joinWith [c] (splitBy p l) = l := by
  intro l
  induction l with
  | nil => rfl
  | cons a as ih =>
    simp only [splitBy]
    rcases hsp : splitBy p as with _ | ⟨b, bs⟩
    · exact absurd hsp (splitBy_ne_nil p as)
    · rw [hsp] at ih
      by_cases hpa : p a = true
      · rw [if_pos hpa]
        have hac : a = c := (hp a).mp hpa
        subst hac
        simp [joinWith, ih]
      · rw [if_neg hpa]
        simp only [consHead]
        rw [joinWith_cons_cons, ih]

/-- A chunk of a split never contains a separator element. -/
theorem splitBy_chunk_mem (p : α → Bool) :
    ∀ (l : List α) (b : List α) (x : α), b ∈ splitBy p l → x ∈ b → p x = false := by
  intro l
  induction l with
  | nil =>
    intro b x hb hx
    simp [splitBy] at hb
    subst hb
    exact absurd hx (List.not_mem_nil x)
  | cons a as ih =>
    intro b x hb hx
    simp only [splitBy] at hb
    by_cases hpa : p a = true
    · rw [if_pos hpa] at hb
      rcases List.mem_cons.mp hb with hb1 | hb1
      · subst hb1; exact absurd hx (List.not_mem_nil x)
      · exact ih b x hb1 hx
    · rw [if_neg hpa] at hb
      rcases hsp : splitBy p as with _ | ⟨bb, bs⟩
      · exact absurd hsp (splitBy_ne_nil p as)
      · rw [hsp] at hb
        simp only [consHead] at hb
        rcases List.mem_cons.mp hb with hb1 | hb1
        · subst hb1
          rcases List.mem_cons.mp hx with hx1 | hx1
          · subst hx1; exact Bool.eq_false_iff.mpr hpa
          · exact ih bb x (by rw [hsp]; exact List.mem_cons_self bb bs) hx1
        · exact ih b x (by rw [hsp]; exact List.mem_cons_of_mem bb hb1) hx

/-- If no element of `l` is a separator, `l` is a single chunk. -/
theorem splitBy_of_no_sep (p : α → Bool) :
    ∀ l : List α, (∀ x ∈ l, p x = false) → splitBy p l = [l] := by
  intro l
  induction l with
  | nil => intro _; rfl
  | cons a as ih =>
    intro h
    have ha : p a = false := h a (List.mem_cons_self a as)
    simp only [splitBy, ih (fun x hx => h x (List.mem_cons_of_mem a hx))]
    rw [if_neg (by simp [ha])]
    rfl

/-- Splitting `chunk ++ c :: rest` with separator-free `chunk` peels the chunk. -/
theorem splitBy_append_sep (p : α → Bool) (c : α) (hc : p c = true) :
    ∀ (chunk rest : List α), (∀ x ∈ chunk, p x = false) →
      splitBy p (chunk ++ c :: rest) = chunk :: splitBy p rest := by
  intro chunk
  induction chunk with
  | nil =>
    intro rest _
    simp only [List.nil_append, splitBy]
    rw [if_pos hc]
  | cons a as ih =>
    intro rest h
    have ha : p a = false := h a (List.mem_cons_self a as)
    have hstep : (a :: as) ++ c :: rest = a :: (as ++ c :: rest) := rfl
    rw [hstep]
    simp only [splitBy]
    rw [if_neg (by simp [ha]), ih rest (fun x hx => h x (List.mem_cons_of_mem a hx))]
    rfl

/-- Splitting a join restores the chunks, provided no chunk contains a
separator and the chunk list is nonempty. -/
theorem splitBy_joinWith (p : α → Bool) (c : α) (hc : p c = true) :
    ∀ B : List (List α), B ≠ [] → (∀ b ∈ B, ∀ x ∈ b, p x = false) →
      splitBy p (joinWith [c] B) = B := by
  intro B
  induction B with
  | nil => intro h _; exact absurd rfl h
  | cons b bs ih =>
    intro _ h
    cases bs with
    | nil =>
      simp only [joinWith]
      exact splitBy_of_no_sep p b (h b (List.mem_cons_self b []))
    | cons b2 bs2 =>
      have hjoin : joinWith [c] (b :: b2 :: bs2) = b ++ c :: joinWith [c] (b2 :: bs2) := by
        simp [joinWith]
      rw [hjoin, splitBy_append_sep p c hc b _ (h b (List.mem_cons_self b _)),
        ih (by simp) (fun x hx y hy => h x (List.mem_cons_of_mem b hx) y hy)]

/-- Every element of a join comes from the separator or from some chunk. -/
theorem joinWith_mem (sep : List α) :
    ∀ (B : List (List α)) (x : α), x ∈ joinWith sep B → x ∈ sep ∨ ∃ b ∈ B, x ∈ b := by
  intro B
  induction B with
  | nil => intro x hx; exact absurd hx (List.not_mem_nil x)
  | cons b bs ih =>
    intro x hx
    cases bs with
    | nil =>
      right
      exact ⟨b, List.mem_cons_self b [], hx⟩
    | cons b2 bs2 =>
      have hjoin : joinWith sep (b :: b2 :: bs2) = b ++ sep ++ joinWith sep (b2 :: bs2) := by
        simp [joinWith]
      rw [hjoin] at hx
      rcases List.mem_append.mp hx with hx | hx
      · rcases List.mem_append.mp hx with hx | hx
        · exact Or.inr ⟨b, List.mem_cons_self b _, hx⟩
        · exact Or.inl hx
      · rcases ih x hx with hx | ⟨bb, hbb, hxbb⟩
        · exact Or.inl hx
        · exact Or.inr ⟨bb, List.mem_cons_of_mem b hbb, hxbb⟩

theorem getLast?_append_of_ne_nil (a : List α) :
    ∀ b : List α, b ≠ [] → (a ++ b).getLast? = b.getLast? := by
  induction a with
  | nil => intro b _; rfl
  | cons x xs ih =>
    intro b hb
    rcases hxb : xs ++ b with _ | ⟨y, ys⟩
    · rcases List.append_eq_nil.mp hxb with ⟨_, h2⟩
      exact absurd h2 hb
    · have h1 : (x :: xs ++ b).getLast? = (xs ++ b).getLast? := by
        rw [List.cons_append, hxb, List.getLast?_cons_cons]
      rw [h1, ih b hb]

/-- The last element of a join with nonempty last chunk is that chunk's last. -/
theorem joinWith_getLast? (sep : List α) :
    ∀ (B : List (List α)) (l : List α), l ≠ [] →
      (joinWith sep (B ++ [l])).getLast? = l.getLast? := by
  intro B
  induction B with
  | nil => intro l _; rfl
  | cons b bs ih =>
    intro l hl
    have hjoin : joinWith sep ((b :: bs) ++ [l]) = b ++ sep ++ joinWith sep (bs ++ [l]) := by
      rcases hbs : bs ++ [l] with _ | ⟨y, ys⟩
      · rcases List.append_eq_nil.mp hbs with ⟨_, h2⟩
        exact absurd h2 (by simp)
      · rw [List.cons_append, hbs]
        simp [joinWith]
    have hne : joinWith sep (bs ++ [l]) ≠ [] := by
      intro hemp
      have := ih l hl
      rw [hemp] at this
      simp only [List.getLast?_nil] at this
      rcases l with _ | ⟨z, zs⟩
      · exact hl rfl
      · rw [List.getLast?_eq_getLast _ (by simp)] at this
        exact Option.noConfusion this
    rw [hjoin, List.append_assoc, getLast?_append_of_ne_nil b _
      (by intro h; exact hne (List.append_eq_nil.mp h).2),
      getLast?_append_of_ne_nil sep _ hne, ih l hl]

theorem parse2_padZero : ∀ n, n < 100 → parse2 (padZero 2 (digitsN n)) = some n := by
  decide

theorem parse3_padZero : ∀ n, n < 1000 → parse3 (padZero 3 (digitsN n)) = some n := by
  decide

/-- Structural inversion of `parse2`. -/
theorem parse2_inv (l : List Char) (n : Nat) (h : parse2 l = some n) :
    ∃ a b, l = [a, b] ∧ a.isDigit = true ∧ b.isDigit = true ∧
      10 * digitVal a + digitVal b = n := by
  match l with
  | [a, b] =>
    refine ⟨a, b, rfl, ?_⟩
    simp only [parse2] at h
    rcases hab : a.isDigit && b.isDigit with _ | _
    · rw [hab] at h; simp at h
    · rw [hab] at h
      simp only [if_true] at h
      rcases Bool.and_eq_true_iff.mp hab with ⟨h1, h2⟩
      exact ⟨h1, h2, by injection h⟩
  | [] => simp [parse2] at h
  | [_] => simp [parse2] at h
  | _ :: _ :: _ :: _ => simp [parse2] at h

/-- Structural inversion of `parse3`. -/
theorem parse3_inv (l : List Char) (n : Nat) (h : parse3 l = some n) :
    ∃ a b c, l = [a, b, c] ∧ a.isDigit = true ∧ b.isDigit = true ∧ c.isDigit = true ∧
      100 * digitVal a + 10 * digitVal b + digitVal c = n := by
  match l with
  | [a, b, c] =>
    refine ⟨a, b, c, rfl, ?_⟩
    simp only [parse3] at h
    rcases hab : a.isDigit && b.isDigit && c.isDigit with _ | _
    · rw [hab] at h; simp at h
    · rw [hab] at h
      simp only [if_true] at h
      rcases Bool.and_eq_true_iff.mp hab with ⟨h1, h3⟩
      rcases Bool.and_eq_true_iff.mp h1 with ⟨h1, h2⟩
      exact ⟨h1, h2, h3, by injection h⟩
  | [] => simp [parse3] at h
  | [_] => simp [parse3] at h
  | [_, _] => simp [parse3] at h
  | _ :: _ :: _ :: _ :: _ => simp [parse3] at h

/-- Structure of a rendered timecode for times below 100 hours: exactly
twelve characters with digit fields of the expected values. -/
theorem renderTC_struct (sep : Char) (ms : Nat) (h : ms < 360000000) :
    ∃ a1 a2 b1 b2 c1 c2 d1 d2 d3 : Char,
      renderTC sep ms = [a1, a2, ':', b1, b2, ':', c1, c2, sep, d1, d2, d3] ∧
      a1.isDigit = true ∧ a2.isDigit = true ∧ b1.isDigit = true ∧ b2.isDigit = true ∧
      c1.isDigit = true ∧ c2.isDigit = true ∧ d1.isDigit = true ∧ d2.isDigit = true ∧
      d3.isDigit = true ∧
      10 * digitVal a1 + digitVal a2 = ms / 3600000 ∧
      10 * digitVal b1 + digitVal b2 = ms % 3600000 / 60000 ∧
      10 * digitVal c1 + digitVal c2 = ms % 60000 / 1000 ∧
      100 * digitVal d1 + 10 * digitVal d2 + digitVal d3 = ms % 1000 := by
  have hh : ms / 3600000 < 100 := by omega
  have hm : ms % 3600000 / 60000 < 100 := by omega
  have hs : ms % 60000 / 1000 < 100 := by omega
  have hmil : ms % 1000 < 1000 := by omega
  obtain ⟨a1, a2, ha, da1, da2, va⟩ :=
    parse2_inv _ _ (parse2_padZero _ hh)
  obtain ⟨b1, b2, hb, db1, db2, vb⟩ :=
    parse2_inv _ _ (parse2_padZero _ hm)
  obtain ⟨c1, c2, hc, dc1, dc2, vc⟩ :=
    parse2_inv _ _ (parse2_padZero _ hs)
  obtain ⟨d1, d2, d3, hd, dd1, dd2, dd3, vd⟩ :=
    parse3_inv _ _ (parse3_padZero _ hmil)
  refine ⟨a1, a2, b1, b2, c1, c2, d1, d2, d3, ?_, da1, da2, db1, db2, dc1, dc2,
    dd1, dd2, dd3, va, vb, vc, vd⟩
  rw [renderTC, ha, hb, hc, hd]
  rfl

/-- The unanchored regex matches at the start of a rendered timecode (for
times below 100 hours), whatever follows. -/
theorem matchTCAt_renderTC (sep : Char) (ms : Nat) (rest : List Char)
    (h : ms < 360000000) (hsep : sep = ',' ∨ sep = '.') :
    matchTCAt (renderTC sep ms ++ rest) =
      some (ms / 3600000, ms % 3600000 / 60000, ms % 60000 / 1000, ms % 1000) := by
  obtain ⟨a1, a2, b1, b2, c1, c2, d1, d2, d3, heq, da1, da2, db1, db2, dc1, dc2,
    dd1, dd2, dd3, va, vb, vc, vd⟩ := renderTC_struct sep ms h
  rw [heq]
  have hflat : ([a1, a2, ':', b1, b2, ':', c1, c2, sep, d1, d2, d3] : List Char) ++ rest
      = a1 :: a2 :: ':' :: b1 :: b2 :: ':' :: c1 :: c2 :: sep :: d1 :: d2 :: d3 :: rest :=
    rfl
  rw [hflat]
  simp only [matchTCAt]
  rcases hsep with hsep | hsep <;> subst hsep <;>
    simp [da1, da2, db1, db2, dc1, dc2, dd1, dd2, dd3, va, vb, vc, vd]

/-- Combining the fields of a rendered timecode recovers the millisecond
value. -/
theorem tc_combine (ms : Nat) :
    ms / 3600000 * 3600000 + ms % 3600000 / 60000 * 60000
      + ms % 60000 / 1000 * 1000 + ms % 1000 = ms := by
  omega

theorem searchTC_of_matchTCAt (l : List Char) (r : Nat × Nat × Nat × Nat)
    (h : matchTCAt l = some r) : searchTC l = some r := by
  cases l with
  | nil => simp [matchTCAt] at h
  | cons c cs => simp [searchTC, h]

/-- Inversion of a successful `matchTCAt`. -/
theorem matchTCAt_inv (l : List Char) (f : Nat × Nat × Nat × Nat)
    (h : matchTCAt l = some f) :
    ∃ (a1 a2 x b1 b2 y c1 c2 z d1 d2 d3 : Char) (rest : List Char),
      l = a1 :: a2 :: x :: b1 :: b2 :: y :: c1 :: c2 :: z :: d1 :: d2 :: d3 :: rest ∧
      (a1.isDigit && a2.isDigit && x == ':' && b1.isDigit && b2.isDigit && y == ':'
        && c1.isDigit && c2.isDigit && (z == ',' || z == '.')
        && d1.isDigit && d2.isDigit && d3.isDigit) = true ∧
      f = (10 * digitVal a1 + digitVal a2, 10 * digitVal b1 + digitVal b2,
           10 * digitVal c1 + digitVal c2,
           100 * digitVal d1 + 10 * digitVal d2 + digitVal d3) := by
  match l with
  | a1 :: a2 :: x :: b1 :: b2 :: y :: c1 :: c2 :: z :: d1 :: d2 :: d3 :: rest =>
    simp only [matchTCAt] at h
    rcases hcond : (a1.isDigit && a2.isDigit && x == ':' && b1.isDigit && b2.isDigit
        && y == ':' && c1.isDigit && c2.isDigit && (z == ',' || z == '.')
        && d1.isDigit && d2.isDigit && d3.isDigit) with _ | _
    · rw [hcond] at h; simp at h
    · rw [hcond] at h
      simp only [if_true] at h
      exact ⟨a1, a2, x, b1, b2, y, c1, c2, z, d1, d2, d3, rest, rfl, hcond,
        (by injection h with h2; exact h2.symm)⟩
  | [] => simp [matchTCAt] at h
  | [_] => simp [matchTCAt] at h
  | [_, _] => simp [matchTCAt] at h
  | [_, _, _] => simp [matchTCAt] at h
  | [_, _, _, _] => simp [matchTCAt] at h
  | [_, _, _, _, _] => simp [matchTCAt] at h
  | [_, _, _, _, _, _] => simp [matchTCAt] at h
  | [_, _, _, _, _, _, _] => simp [matchTCAt] at h
  | [_, _, _, _, _, _, _, _] => simp [matchTCAt] at h
  | [_, _, _, _, _, _, _, _, _] => simp [matchTCAt] at h
  | [_, _, _, _, _, _, _, _, _, _] => simp [matchTCAt] at h
  | [_, _, _, _, _, _, _, _, _, _, _] => simp [matchTCAt] at h

/-- Inversion of a successful `timecodeFields`. -/
theorem timecodeFields_inv (l : List Char) (f : Nat × Nat × Nat × Nat)
    (h : timecodeFields (String.mk l) = some f) :
    ∃ (a1 a2 x b1 b2 y c1 c2 z d1 d2 d3 : Char),
      l = [a1, a2, x, b1, b2, y, c1, c2, z, d1, d2, d3] ∧
      (a1.isDigit && a2.isDigit && x == ':' && b1.isDigit && b2.isDigit && y == ':'
        && c1.isDigit && c2.isDigit && (z == ',' || z == '.')
        && d1.isDigit && d2.isDigit && d3.isDigit) = true ∧
      f = (10 * digitVal a1 + digitVal a2, 10 * digitVal b1 + digitVal b2,
           10 * digitVal c1 + digitVal c2,
           100 * digitVal d1 + 10 * digitVal d2 + digitVal d3) := by
  match l with
  | [a1, a2, x, b1, b2, y, c1, c2, z, d1, d2, d3] =>
    simp only [timecodeFields] at h
    rcases hcond : (a1.isDigit && a2.isDigit && x == ':' && b1.isDigit && b2.isDigit
        && y == ':' && c1.isDigit && c2.isDigit && (z == ',' || z == '.')
        && d1.isDigit && d2.isDigit && d3.isDigit) with _ | _
    · rw [hcond] at h; simp at h
    · rw [hcond] at h
      simp only [if_true] at h
      exact ⟨a1, a2, x, b1, b2, y, c1, c2, z, d1, d2, d3, rfl, hcond,
        (by injection h with h2; exact h2.symm)⟩
  | [] => simp [timecodeFields] at h
  | [_] => simp [timecodeFields] at h
  | [_, _] => simp [timecodeFields] at h
  | [_, _, _] => simp [timecodeFields] at h
  | [_, _, _, _] => simp [timecodeFields] at h
  | [_, _, _, _, _] => simp [timecodeFields] at h
  | [_, _, _, _, _, _] => simp [timecodeFields] at h
  | [_, _, _, _, _, _, _] => simp [timecodeFields] at h
  | [_, _, _, _, _, _, _, _] => simp [timecodeFields] at h
  | [_, _, _, _, _, _, _, _, _] => simp [timecodeFields] at h
  | [_, _, _, _, _, _, _, _, _, _] => simp [timecodeFields] at h
  | [_, _, _, _, _, _, _, _, _, _, _] => simp [timecodeFields] at h
  | _ :: _ :: _ :: _ :: _ :: _ :: _ :: _ :: _ :: _ :: _ :: _ :: _ :: _ =>
    simp [timecodeFields] at h

theorem matchTCAt_of_cond (a1 a2 x b1 b2 y c1 c2 z d1 d2 d3 : Char) (rest : List Char)
    (hcond : (a1.isDigit && a2.isDigit && x == ':' && b1.isDigit && b2.isDigit && y == ':'
        && c1.isDigit && c2.isDigit && (z == ',' || z == '.')
        && d1.isDigit && d2.isDigit && d3.isDigit) = true) :
    matchTCAt (a1 :: a2 :: x :: b1 :: b2 :: y :: c1 :: c2 :: z :: d1 :: d2 :: d3 :: rest) =
      some (10 * digitVal a1 + digitVal a2, 10 * digitVal b1 + digitVal b2,
            10 * digitVal c1 + digitVal c2,
            100 * digitVal d1 + 10 * digitVal d2 + digitVal d3) := by
  simp only [matchTCAt]
  rw [hcond]
  rfl

theorem timecodeFields_of_cond (a1 a2 x b1 b2 y c1 c2 z d1 d2 d3 : Char)
    (hcond : (a1.isDigit && a2.isDigit && x == ':' && b1.isDigit && b2.isDigit && y == ':'
        && c1.isDigit && c2.isDigit && (z == ',' || z == '.')
        && d1.isDigit && d2.isDigit && d3.isDigit) = true) :
    timecodeFields (String.mk [a1, a2, x, b1, b2, y, c1, c2, z, d1, d2, d3]) =
      some (10 * digitVal a1 + digitVal a2, 10 * digitVal b1 + digitVal b2,
            10 * digitVal c1 + digitVal c2,
            100 * digitVal d1 + 10 * digitVal d2 + digitVal d3) := by
  simp only [timecodeFields]
  rw [hcond]
  rfl

/-- If the leftmost search fails, no substring of the input is a well-formed
timecode. -/
theorem searchTC_none_sound :
    ∀ l : List Char, searchTC l = none →
      ∀ pre mid post : List Char, l = pre ++ mid ++ post →
        timecodeFields (String.mk mid) = none := by
  intro l
  induction l with
  | nil =>
    intro _ pre mid post hdec
    have h1 := List.append_eq_nil.mp hdec.symm
    have h2 := List.append_eq_nil.mp h1.1
    rw [h2.2]
    rfl
  | cons c cs ih =>
    intro hnone pre mid post hdec
    have hm : matchTCAt (c :: cs) = none := by
      rcases hmt : matchTCAt (c :: cs) with _ | r
      · rfl
      · rw [searchTC, hmt] at hnone
        exact Option.noConfusion hnone
    have hrest : searchTC cs = none := by
      rw [searchTC, hm] at hnone
      exact hnone
    cases pre with
    | nil =>
      rcases htf : timecodeFields (String.mk mid) with _ | f
      · rfl
      · exfalso
        obtain ⟨a1, a2, x, b1, b2, y, c1, c2, z, d1, d2, d3, hmid, hcond, hf⟩ :=
          timecodeFields_inv mid f htf
        have hl : c :: cs
            = a1 :: a2 :: x :: b1 :: b2 :: y :: c1 :: c2 :: z :: d1 :: d2 :: d3 :: post := by
          rw [hdec, hmid]
          rfl
        rw [hl, matchTCAt_of_cond a1 a2 x b1 b2 y c1 c2 z d1 d2 d3 post hcond] at hm
        exact Option.noConfusion hm
    | cons p ps =>
      have hcp : c = p ∧ cs = ps ++ mid ++ post := by
        rw [List.cons_append, List.cons_append] at hdec
        exact ⟨by injection hdec, by injection hdec⟩
      exact ih hrest ps mid post hcp.2

/-- A successful leftmost search exhibits a well-formed timecode substring. -/
theorem searchTC_some_sound :
    ∀ (l : List Char) (f : Nat × Nat × Nat × Nat), searchTC l = some f →
      ∃ pre mid post : List Char,
        l = pre ++ mid ++ post ∧ timecodeFields (String.mk mid) = some f := by
  intro l
  induction l with
  | nil => intro f h; simp [searchTC] at h
  | cons c cs ih =>
    intro f h
    rw [searchTC] at h
    rcases hmt : matchTCAt (c :: cs) with _ | r
    · rw [hmt] at h
      obtain ⟨pre, mid, post, hdec, htf⟩ := ih f h
      exact ⟨c :: pre, mid, post, by rw [List.cons_append, List.cons_append, ← hdec], htf⟩
    · rw [hmt] at h
      have hrf : r = f := by injection h
      subst hrf
      obtain ⟨a1, a2, x, b1, b2, y, c1, c2, z, d1, d2, d3, rest, hdec, hcond, hf⟩ :=
        matchTCAt_inv _ _ hmt
      refine ⟨[], [a1, a2, x, b1, b2, y, c1, c2, z, d1, d2, d3], rest, by simpa using hdec, ?_⟩
      rw [timecodeFields_of_cond a1 a2 x b1 b2 y c1 c2 z d1 d2 d3 hcond, hf]

/-- C4 (amended): `srtTimeToMs` throws exactly when NO substring of the input
matches the fixed-width pattern `HH:MM:SS<,.>mmm` (the source regex is
unanchored, so a malformed string embedding a well-formed timecode substring
does not throw); on a string that is exactly a well-formed timecode it
returns `hours*3600000 + minutes*60000 + seconds*1000 + milliseconds`. -/
theorem srtTimeToMs_spec (s : String) :
    (srtTimeToMs s = none ↔
      ∀ pre mid post : List Char, s.data = pre ++ mid ++ post →
        timecodeFields (String.mk mid) = none)
    ∧ (∀ h m sec mil : Nat, timecodeFields s = some (h, m, sec, mil) →
        srtTimeToMs s = some (h * 3600000 + m * 60000 + sec * 1000 + mil)) := by
  obtain ⟨sd⟩ := s
  constructor
  · constructor
    · intro hnone pre mid post hdec
      have hsearch : searchTC sd = none := by
        rcases hs : searchTC sd with _ | f
        · rfl
        · rw [srtTimeToMs, hs] at hnone
          simp at hnone
      exact searchTC_none_sound sd hsearch pre mid post hdec
    · intro hall
      rcases hs : searchTC sd with _ | f
      · rw [srtTimeToMs, hs]
        rfl
      · obtain ⟨pre, mid, post, hdec, htf⟩ := searchTC_some_sound sd f hs
        rw [hall pre mid post hdec] at htf
        exact Option.noConfusion htf
  · intro h m sec mil htf
    obtain ⟨a1, a2, x, b1, b2, y, c1, c2, z, d1, d2, d3, hmid, hcond, hf⟩ :=
      timecodeFields_inv sd (h, m, sec, mil) htf
    have hl : sd = a1 :: a2 :: x :: b1 :: b2 :: y :: c1 :: c2 :: z :: d1 :: d2 :: d3 :: [] := by
      rw [hmid]
    have hsearch := searchTC_of_matchTCAt _ _
      (matchTCAt_of_cond a1 a2 x b1 b2 y c1 c2 z d1 d2 d3 [] hcond)
    rw [srtTimeToMs]
    show (searchTC sd).map _ = _
    rw [hl, hsearch]
    have h1 : h = 10 * digitVal a1 + digitVal a2 := congrArg Prod.fst hf
    have h2 : m = 10 * digitVal b1 + digitVal b2 := congrArg (fun q => q.2.1) hf
    have h3 : sec = 10 * digitVal c1 + digitVal c2 := congrArg (fun q => q.2.2.1) hf
    have h4 : mil = 100 * digitVal d1 + 10 * digitVal d2 + digitVal d3 :=
      congrArg (fun q => q.2.2.2) hf
    simp [h1, h2, h3, h4]

/-- C4 witness: applying the characterization at the concrete well-formed
timecode `01:02:03,004`. -/
theorem srtTimeToMs_spec_witness :
    timecodeFields (String.mk ['0', '1', ':', '0', '2', ':', '0', '3', ',', '0', '0', '4'])
      = some (1, 2, 3, 4) ∧
    srtTimeToMs (String.mk ['0', '1', ':', '0', '2', ':', '0', '3', ',', '0', '0', '4'])
      = some 3723004 := by
  refine ⟨by decide, ?_⟩
  have h := (srtTimeToMs_spec
    (String.mk ['0', '1', ':', '0', '2', ':', '0', '3', ',', '0', '0', '4'])).2
    1 2 3 4 (by decide)
  simpa using h

/-- C4 counterexample: `000:00:00,000` has wrong digit widths (three-digit
hours), so by the claim `srtTimeToMs` should throw; instead the unanchored
regex finds the embedded well-formed substring `00:00:00,000` and returns 0. -/
theorem srtTimeToMs_wrong_width_counterexample :
    timecodeFields (String.mk
      ['0', '0', '0', ':', '0', '0', ':', '0', '0', ',', '0', '0', '0']) = none ∧
    srtTimeToMs (String.mk
      ['0', '0', '0', ':', '0', '0', ':', '0', '0', ',', '0', '0', '0']) = some 0 := by
  constructor <;> decide

/-- C3 (amended): for milliseconds below 100 hours (360000000 ms), the
round-trip `srtTimeToMs (msToSrtTime ms)` is the identity, and the rendered
timecode is fixed-width `HH:MM:SS,mmm` with a comma separator. -/
theorem srtTime_roundtrip (ms : Nat) (h : ms < 360000000) :
    srtTimeToMs (msToSrtTime ms) = some ms ∧
    timecodeFields (msToSrtTime ms) =
      some (ms / 3600000, ms % 3600000 / 60000, ms % 60000 / 1000, ms % 1000) ∧
    (msToSrtTime ms).data.get? 8 = some ',' := by
  have hmt := matchTCAt_renderTC ',' ms [] h (Or.inl rfl)
  rw [List.append_nil] at hmt
  have hsearch := searchTC_of_matchTCAt _ _ hmt
  obtain ⟨a1, a2, b1, b2, c1, c2, d1, d2, d3, heq, da1, da2, db1, db2, dc1, dc2,
    dd1, dd2, dd3, va, vb, vc, vd⟩ := renderTC_struct ',' ms h
  refine ⟨?_, ?_, ?_⟩
  · rw [msToSrtTime, srtTimeToMs]
    show (searchTC (renderTC ',' ms)).map _ = _
    rw [hsearch]
    show some (ms / 3600000 * 3600000 + ms % 3600000 / 60000 * 60000
        + ms % 60000 / 1000 * 1000 + ms % 1000) = some ms
    rw [tc_combine ms]
  · rw [msToSrtTime]
    show timecodeFields (String.mk (renderTC ',' ms)) = _
    rw [heq, timecodeFields_of_cond a1 a2 ':' b1 b2 ':' c1 c2 ',' d1 d2 d3
      (by simp [da1, da2, db1, db2, dc1, dc2, dd1, dd2, dd3]), va, vb, vc, vd]
  · rw [msToSrtTime]
    show (renderTC ',' ms).get? 8 = some ','
    rw [heq]
    rfl

/-- C3 witness: the round-trip at the concrete time 3661234 ms
(`01:01:01,234`). -/
theorem srtTime_roundtrip_witness :
    3661234 < 360000000 ∧ srtTimeToMs (msToSrtTime 3661234) = some 3661234 :=
  ⟨by norm_num, (srtTime_roundtrip 3661234 (by norm_num)).1⟩

/-- C3 counterexample: at 100 hours the rendered timecode is 13 characters
("100:00:00,000", hours not two-digit), and parsing it back yields 0, not the
original value — the claim fails for `ms = 360000000`. -/
theorem msToSrtTime_roundtrip_counterexample :
    srtTimeToMs (msToSrtTime 360000000) ≠ some 360000000 ∧
    srtTimeToMs (msToSrtTime 360000000) = some 0 ∧
    (msToSrtTime 360000000).data.length = 13 := by
  refine ⟨?_, ?_, ?_⟩ <;> decide

theorem findActiveFrom_none (t : Int) :
    ∀ (caps : List Caption) (k : Nat),
      findActiveFrom t k caps = none ↔
        ∀ j c, caps.get? j = some c → ¬(c.start ≤ t ∧ t < c.«end») := by
  intro caps
  induction caps with
  | nil =>
    intro k
    constructor
    · intro _ j c hc
      simp [List.get?] at hc
    · intro _
      rfl
  | cons c cs ih =>
    intro k
    simp only [findActiveFrom]
    by_cases hcond : c.start ≤ t ∧ t < c.«end»
    · rw [if_pos hcond]
      constructor
      · intro h
        exact Option.noConfusion h
      · intro hall
        exact absurd hcond (hall 0 c rfl)
    · rw [if_neg hcond]
      rw [ih (k + 1)]
      constructor
      · intro hall j cj hj
        cases j with
        | zero =>
          have hcc : cj = c := by injection hj with h9; exact h9.symm
          subst hcc
          exact hcond
        | succ j' => exact hall j' cj hj
      · intro hall j cj hj
        exact hall (j + 1) cj hj

theorem findActiveFrom_some (t : Int) :
    ∀ (caps : List Caption) (k i : Nat),
      findActiveFrom t k caps = some i ↔
        ∃ j, i = k + j ∧
          (∃ c, caps.get? j = some c ∧ c.start ≤ t ∧ t < c.«end») ∧
          ∀ j' c', j' < j → caps.get? j' = some c' →
            ¬(c'.start ≤ t ∧ t < c'.«end») := by
  intro caps
  induction caps with
  | nil =>
    intro k i
    constructor
    · intro h
      exact Option.noConfusion h
    · rintro ⟨j, _, ⟨c, hc, _⟩, _⟩
      simp [List.get?] at hc
  | cons c cs ih =>
    intro k i
    simp only [findActiveFrom]
    by_cases hcond : c.start ≤ t ∧ t < c.«end»
    · rw [if_pos hcond]
      constructor
      · intro h
        have hik : i = k := by injection h with h1; omega
        exact ⟨0, by omega, ⟨c, rfl, hcond⟩, by intro j' c' hj' _; omega⟩
      · rintro ⟨j, hij, ⟨cj, hget, hcj⟩, hmin⟩
        cases j with
        | zero => simp [hij]
        | succ j' => exact absurd hcond (hmin 0 c (by omega) rfl)
    · rw [if_neg hcond]
      rw [ih (k + 1) i]
      constructor
      · rintro ⟨j, hij, ⟨cj, hget, hcj⟩, hmin⟩
        refine ⟨j + 1, by omega, ⟨cj, hget, hcj⟩, ?_⟩
        intro j' c' hj' hget'
        cases j' with
        | zero =>
          have hcc : c' = c := by injection hget' with h9; exact h9.symm
          subst hcc
          exact hcond
        | succ j'' => exact hmin j'' c' (by omega) hget'
      · rintro ⟨j, hij, ⟨cj, hget, hcj⟩, hmin⟩
        cases j with
        | zero =>
          exfalso
          have hcc : cj = c := by injection hget with h9; exact h9.symm
          subst hcc
          exact hcond hcj
        | succ j' =>
          exact ⟨j', by omega, ⟨cj, hget, hcj⟩,
            fun j'' c'' hj'' hget'' => hmin (j'' + 1) c'' (by omega) hget''⟩

/-- C9: the locator returns the index of the first segment in display order
whose half-open interval `[start, end)` contains `t` (inclusive start,
exclusive end — a `t` equal to a segment's `end` does not match it, and on
overlap the earliest display index wins), and `none` when no segment's
interval contains `t`. -/
theorem findActiveCaptionIndex_spec (captions : List Caption) (t : Int) :
    (∀ i, findActiveCaptionIndex captions t = some i ↔
      (∃ c, captions.get? i = some c ∧ c.start ≤ t ∧ t < c.«end») ∧
      ∀ j c, j < i → captions.get? j = some c → ¬(c.start ≤ t ∧ t < c.«end»)) ∧
    (findActiveCaptionIndex captions t = none ↔
      ∀ j c, captions.get? j = some c → ¬(c.start ≤ t ∧ t < c.«end»)) := by
  constructor
  · intro i
    rw [findActiveCaptionIndex, findActiveFrom_some t captions 0 i]
    constructor
    · rintro ⟨j, hij, hex, hmin⟩
      have : j = i := by omega
      subst this
      exact ⟨hex, fun j c hj hc => hmin j c hj hc⟩
    · rintro ⟨hex, hmin⟩
      exact ⟨i, by omega, hex, fun j c hj hc => hmin j c hj hc⟩
  · rw [findActiveCaptionIndex, findActiveFrom_none t captions 0]

/-- C5 (amended): `addCaption` inserts at the JavaScript-splice-normalized
index: a non-negative index is clamped into `[0, n]`, but a negative index
counts back from the end (`max(n + index, 0)`).  At that position the result
carries the draft's fields with the generated id attached; the result is one
longer, and every existing segment is unchanged and in its original relative
order; no timing validation or re-sorting happens. -/
theorem addCaption_spec (captions : List Caption) (index : Int) (d : CaptionDraft)
    (freshId : String) :
    (addCaption captions index d freshId).length = captions.length + 1 ∧
    (addCaption captions index d freshId).get? (spliceIndex captions.length index) =
      some { id := freshId, start := d.start, «end» := d.«end», text := d.text } ∧
    (∀ j, j < spliceIndex captions.length index →
      (addCaption captions index d freshId).get? j = captions.get? j) ∧
    (∀ j, spliceIndex captions.length index ≤ j →
      (addCaption captions index d freshId).get? (j + 1) = captions.get? j) ∧
    (index < 0 →
      (spliceIndex captions.length index : Int) = max ((captions.length : Int) + index) 0) ∧
    (0 ≤ index →
      (spliceIndex captions.length index : Int) = min index (captions.length : Int)) := by
  have hk : spliceIndex captions.length index ≤ captions.length := by
    simp only [spliceIndex]
    split <;> omega
  have htake : (captions.take (spliceIndex captions.length index)).length
      = spliceIndex captions.length index := by
    simp [List.length_take]
    omega
  refine ⟨?_, ?_, ?_, ?_, ?_, ?_⟩
  · simp only [addCaption, List.length_append, List.length_cons, List.length_drop, htake]
    omega
  · rw [addCaption]
    show (captions.take _ ++ _ :: captions.drop _).get? _ = _
    rw [List.get?_append_right (by omega), htake, Nat.sub_self]
    rfl
  · intro j hj
    rw [addCaption]
    show (captions.take _ ++ _ :: captions.drop _).get? j = _
    rw [List.get?_append (by omega), List.get?_take (by omega)]
  · intro j hj
    rw [addCaption]
    show (captions.take _ ++ _ :: captions.drop _).get? (j + 1) = _
    rw [List.get?_append_right (by omega), htake]
    have hsub : j + 1 - spliceIndex captions.length index
        = (j - spliceIndex captions.length index) + 1 := by omega
    rw [hsub]
    show (captions.drop _).get? (j - spliceIndex captions.length index) = _
    rw [List.get?_drop]
    congr 1
    omega
  · intro hneg
    simp only [spliceIndex, if_pos hneg]
    omega
  · intro hpos
    simp only [spliceIndex, if_neg (by omega : ¬ index < 0)]
    omega

/-- C5 counterexample: with a two-element collection and index `-1`, the
draft lands at position 1 (splice counts negative indices from the end), not
at position 0 as clamping into `[0, n]` would demand. -/
theorem addCaption_negative_index_counterexample :
    addCaption [⟨"one", 0, 1000, "t1"⟩, ⟨"two", 1000, 2000, "t2"⟩] (-1)
        ⟨5000, 6000, "new"⟩ "fresh"
      = [⟨"one", 0, 1000, "t1"⟩, ⟨"fresh", 5000, 6000, "new"⟩,
         ⟨"two", 1000, 2000, "t2"⟩] ∧
    (addCaption [⟨"one", 0, 1000, "t1"⟩, ⟨"two", 1000, 2000, "t2"⟩] (-1)
        ⟨5000, 6000, "new"⟩ "fresh").get? 0
      ≠ some ⟨"fresh", 5000, 6000, "new"⟩ := by
  constructor <;> decide

/-- C10: a patch can change `start`, `end` or `text`, but `updateCaption`
always returns a collection of the same length whose sequence of ids is
identical to the input's. -/
theorem updateCaption_preserves_ids (captions : List Caption) (id : String)
    (updates : CaptionPatch) :
    (updateCaption captions id updates).map Caption.id = captions.map Caption.id ∧
    (updateCaption captions id updates).length = captions.length := by
  have hid : ∀ c : Caption,
      ((fun cap => if cap.id = id then applyPatch cap updates else cap) c).id = c.id := by
    intro c
    by_cases h : c.id = id <;> simp [h, applyPatch]
  refine ⟨?_, by simp [updateCaption]⟩
  induction captions with
  | nil => rfl
  | cons c cs ih =>
    simp only [updateCaption, List.map_cons] at ih ⊢
    rw [hid c, ih]

/-- C6: a stale id (matching no segment) makes both `updateCaption` and
`deleteCaption` no-ops returning the input collection unchanged; when exactly
one segment matches, `updateCaption` replaces only the patched fields of that
segment and `deleteCaption` drops exactly that segment. -/
theorem update_delete_stale_id_spec (id : String) (updates : CaptionPatch) :
    (∀ captions : List Caption, (∀ c ∈ captions, c.id ≠ id) →
      updateCaption captions id updates = captions ∧
      deleteCaption captions id = captions)
    ∧ (∀ (l r : List Caption) (m : Caption), m.id = id →
        (∀ c ∈ l, c.id ≠ id) → (∀ c ∈ r, c.id ≠ id) →
        updateCaption (l ++ m :: r) id updates = l ++ applyPatch m updates :: r ∧
        deleteCaption (l ++ m :: r) id = l ++ r) := by
  have hupd : ∀ captions : List Caption, (∀ c ∈ captions, c.id ≠ id) →
      updateCaption captions id updates = captions := by
    intro captions hall
    induction captions with
    | nil => rfl
    | cons c cs ih =>
      simp only [updateCaption, List.map_cons] at ih ⊢
      rw [if_neg (hall c (List.mem_cons_self c cs)),
        ih (fun x hx => hall x (List.mem_cons_of_mem c hx))]
  have hdel : ∀ captions : List Caption, (∀ c ∈ captions, c.id ≠ id) →
      deleteCaption captions id = captions := by
    intro captions hall
    induction captions with
    | nil => rfl
    | cons c cs ih =>
      simp only [deleteCaption, List.filter_cons] at ih ⊢
      rw [if_pos (by simp [hall c (List.mem_cons_self c cs)]),
        ih (fun x hx => hall x (List.mem_cons_of_mem c hx))]
  refine ⟨fun captions hall => ⟨hupd captions hall, hdel captions hall⟩, ?_⟩
  intro l r m hm hl hr
  constructor
  · simp only [updateCaption, List.map_append, List.map_cons]
    have h1 : List.map (fun cap => if cap.id = id then applyPatch cap updates else cap) l
        = l := hupd l hl
    have h2 : List.map (fun cap => if cap.id = id then applyPatch cap updates else cap) r
        = r := hupd r hr
    rw [h1, h2, if_pos hm]
  · simp only [deleteCaption, List.filter_append, List.filter_cons]
    have h1 : List.filter (fun cap => cap.id ≠ id) l = l := hdel l hl
    have h2 : List.filter (fun cap => cap.id ≠ id) r = r := hdel r hr
    rw [h1, h2, if_neg (by simp [hm])]

/-- C6 witness: the characterization applied to concrete collections — a
stale-id update is the identity, a present-id delete drops the match, a
present-id update patches only the named field. -/
theorem update_delete_stale_id_witness :
    updateCaption [⟨"a", 0, 1000, "x"⟩] "zzz" ⟨some 5, none, none⟩
      = [⟨"a", 0, 1000, "x"⟩] ∧
    deleteCaption [⟨"b", 0, 1000, "y"⟩, ⟨"c", 1000, 2000, "z"⟩] "b"
      = [⟨"c", 1000, 2000, "z"⟩] ∧
    updateCaption [⟨"b", 0, 1000, "y"⟩, ⟨"c", 1000, 2000, "z"⟩] "c" ⟨none, none, some "w"⟩
      = [⟨"b", 0, 1000, "y"⟩, ⟨"c", 1000, 2000, "w"⟩] := by
  refine ⟨?_, ?_, ?_⟩
  · exact ((update_delete_stale_id_spec "zzz" ⟨some 5, none, none⟩).1
      [⟨"a", 0, 1000, "x"⟩] (by decide)).1
  · have h := ((update_delete_stale_id_spec "b" ⟨none, none, none⟩).2
      [] [⟨"c", 1000, 2000, "z"⟩] ⟨"b", 0, 1000, "y"⟩ rfl (by decide) (by decide)).2
    simpa using h
  · have h := ((update_delete_stale_id_spec "c" ⟨none, none, some "w"⟩).2
      [⟨"b", 0, 1000, "y"⟩] [] ⟨"c", 1000, 2000, "z"⟩ rfl (by decide) (by decide)).1
    simpa [applyPatch] using h

/-- C1: evaluating the code at the failing input.  From
`past = [0], present = 1, future = []`, an `undo` (restoring present 0 and
making redo available) followed by a commit of the value 2 leaves the state
unchanged except for clearing the suppression flag: the commit is swallowed
by the `isUndoRedoRef` guard instead of being applied, `present` stays 0,
nothing is pushed onto `past`, and `future` still holds `[1]`, so redo
remains available — contradicting the claimed law that a commit issued
immediately after an undo is applied and clears `future`. -/
theorem commit_after_undo_dropped :
    undo (⟨[0], 1, [], false⟩ : HistoryState Nat) = ⟨[], 0, [1], true⟩ ∧
    setState 2 (undo (⟨[0], 1, [], false⟩ : HistoryState Nat)) = ⟨[], 0, [1], false⟩ ∧
    (setState 2 (undo (⟨[0], 1, [], false⟩ : HistoryState Nat))).present ≠ 2 ∧
    canRedo (setState 2 (undo (⟨[0], 1, [], false⟩ : HistoryState Nat))) = true := by
  refine ⟨?_, ?_, ?_, ?_⟩ <;> decide

theorem mem_ite_singleton {c : Prop} [Decidable c] {x a : α}
    (h : x ∈ (if c then [a] else [])) : c ∧ x = a := by
  split at h
  · exact ⟨by assumption, List.mem_singleton.mp h⟩
  · exact absurd h (List.not_mem_nil x)

/-- C7: a segment whose text length divided by its duration in seconds is
exactly 21 gets no reading-speed Error (the threshold is strictly greater
than 21), and a segment with `end - start = 0` gets a timing-inversion
Error. -/
theorem validateCaption_boundary :
    (∀ (cap : Caption) (idx : Nat),
      (cap.text.length : ℚ) / captionDuration cap = 21 →
      VIssue.cpsTooFast idx ∉ (validateCaption cap idx).errors)
    ∧ (∀ (cap : Caption) (idx : Nat), cap.«end» - cap.start = 0 →
      VIssue.startNotBeforeEnd idx ∈ (validateCaption cap idx).errors) := by
  constructor
  · intro cap idx h
    have hd : 0 < captionDuration cap := by
      rcases lt_trichotomy (captionDuration cap) 0 with hlt | heq | hgt
      · exfalso
        have hle : (cap.text.length : ℚ) / captionDuration cap ≤ 0 :=
          div_nonpos_iff.mpr (Or.inl ⟨Nat.cast_nonneg cap.text.length, le_of_lt hlt⟩)
        rw [h] at hle
        norm_num at hle
      · exfalso
        rw [heq, div_zero] at h
        norm_num at h
      · exact hgt
    have hnot : ¬ cpsAbove cap.text.length (captionDuration cap) 21 := by
      rintro (⟨hpos, hgt⟩ | hle)
      · rw [h] at hgt
        exact lt_irrefl _ hgt
      · exact absurd hd (not_lt.mpr hle)
    intro hmem
    have hmem' : VIssue.cpsTooFast idx ∈ captionErrors cap idx := hmem
    simp only [captionErrors, List.mem_append] at hmem'
    rcases hmem' with ((h1 | h2) | h3) | h4
    · exact absurd (mem_ite_singleton h1).2 (by simp)
    · exact absurd (mem_ite_singleton h2).2 (by simp)
    · exact absurd (mem_ite_singleton h3).2 (by simp)
    · exact hnot (mem_ite_singleton h4).1
  · intro cap idx h
    show VIssue.startNotBeforeEnd idx ∈ captionErrors cap idx
    simp only [captionErrors, List.mem_append]
    left; left; left
    rw [if_pos (by omega : cap.start ≥ cap.«end»)]
    exact List.mem_singleton_self _

/-- C7 witness: a 42-character text over 2 seconds is exactly 21 CPS and gets
no reading-speed Error; a zero-duration segment gets the timing-inversion
Error. -/
theorem validateCaption_boundary_witness :
    ((⟨"w", 0, 2000, "aaaaaaaaaaaaaaaaaaaaaaaaaaaaaaaaaaaaaaaaaa"⟩ :
        Caption).text.length = 42) ∧
    VIssue.cpsTooFast 0 ∉
      (validateCaption ⟨"w", 0, 2000, "aaaaaaaaaaaaaaaaaaaaaaaaaaaaaaaaaaaaaaaaaa"⟩
        0).errors ∧
    VIssue.startNotBeforeEnd 3 ∈ (validateCaption ⟨"v", 500, 500, "x"⟩ 3).errors := by
  refine ⟨rfl, ?_, ?_⟩
  · exact validateCaption_boundary.1 _ 0 (by
      norm_num [captionDuration,
        show ("aaaaaaaaaaaaaaaaaaaaaaaaaaaaaaaaaaaaaaaaaa" : String).length = 42 from rfl])
  · exact validateCaption_boundary.2 _ 3 (by decide)

theorem get?_tail_eq (l : List α) (n : Nat) : l.tail.get? n = l.get? (n + 1) := by
  cases l <;> rfl

theorem overlap_not_mem_captionErrors (cap : Caption) (idx i : Nat) (m : Int) :
    VIssue.overlap i m ∉ captionErrors cap idx := by
  intro h
  simp only [captionErrors, List.mem_append] at h
  rcases h with ((h1 | h2) | h3) | h4 <;>
    first
      | exact absurd (mem_ite_singleton h1).2 (by simp)
      | exact absurd (mem_ite_singleton h2).2 (by simp)
      | exact absurd (mem_ite_singleton h3).2 (by simp)
      | exact absurd (mem_ite_singleton h4).2 (by simp)

theorem gap_not_mem_captionWarnings (cap : Caption) (idx i : Nat) (g : Int) :
    VIssue.gapTooSmall i g ∉ captionWarnings cap idx := by
  intro h
  simp only [captionWarnings, List.mem_append] at h
  rcases h with ((((h1 | h2) | h3) | h4) | h5) | h6
  · exact absurd (mem_ite_singleton h1).2 (by simp)
  · exact absurd (mem_ite_singleton h2).2 (by simp)
  · exact absurd (mem_ite_singleton h3).2 (by simp)
  · rcases List.mem_filterMap.mp h4 with ⟨p, _, hp⟩
    split at hp <;> simp at hp
  · exact absurd (mem_ite_singleton h5).2 (by simp)
  · exact absurd (mem_ite_singleton h6).2 (by simp)

theorem overlap_not_mem_indiv (captions : List Caption) (i : Nat) (m : Int) :
    VIssue.overlap i m ∉ (captions.enum.map fun p => captionErrors p.2 p.1).join := by
  intro h
  rcases List.mem_join.mp h with ⟨l, hl, hx⟩
  rcases List.mem_map.mp hl with ⟨p, _, rfl⟩
  exact overlap_not_mem_captionErrors p.2 p.1 i m hx

theorem gap_not_mem_indiv (captions : List Caption) (i : Nat) (g : Int) :
    VIssue.gapTooSmall i g ∉ (captions.enum.map fun p => captionWarnings p.2 p.1).join := by
  intro h
  rcases List.mem_join.mp h with ⟨l, hl, hx⟩
  rcases List.mem_map.mp hl with ⟨p, _, rfl⟩
  exact gap_not_mem_captionWarnings p.2 p.1 i g hx

theorem mem_crossErrors_iff (captions : List Caption) (i : Nat) (m : Int) :
    VIssue.overlap i m ∈ crossErrors captions ↔
      ∃ cur nxt, captions.get? i = some cur ∧ captions.get? (i + 1) = some nxt ∧
        nxt.start < cur.«end» ∧ m = cur.«end» - nxt.start := by
  constructor
  · intro h
    rcases List.mem_filterMap.mp h with ⟨p, hpmem, hp⟩
    obtain ⟨j, cur, nxt⟩ := p
    split at hp
    · rename_i hcond
      have hji : j = i ∧ cur.«end» - nxt.start = m := by
        constructor <;> injection hp with h9 <;>
          first
            | exact (VIssue.overlap.injEq _ _ _ _).mp h9 |>.1
            | exact (VIssue.overlap.injEq _ _ _ _).mp h9 |>.2
      obtain ⟨rfl, hm⟩ := hji
      have hzip := (List.mk_mem_enum_iff_get?).mp hpmem
      rw [List.get?_zip_eq_some] at hzip
      refine ⟨cur, nxt, hzip.1, ?_, hcond, hm.symm⟩
      rw [← get?_tail_eq]
      exact hzip.2
    · exact absurd hp (by simp)
  · rintro ⟨cur, nxt, hcur, hnxt, hcond, rfl⟩
    apply List.mem_filterMap.mpr
    refine ⟨(i, cur, nxt), ?_, ?_⟩
    · apply (List.mk_mem_enum_iff_get?).mpr
      rw [List.get?_zip_eq_some]
      exact ⟨hcur, by rw [get?_tail_eq]; exact hnxt⟩
    · rw [if_pos hcond]

theorem mem_crossWarnings_iff (captions : List Caption) (i : Nat) (g : Int) :
    VIssue.gapTooSmall i g ∈ crossWarnings captions ↔
      ∃ cur nxt, captions.get? i = some cur ∧ captions.get? (i + 1) = some nxt ∧
        ¬ nxt.start < cur.«end» ∧ g = nxt.start - cur.«end» ∧ g < MIN_GAP_MS := by
  constructor
  · intro h
    rcases List.mem_filterMap.mp h with ⟨p, hpmem, hp⟩
    obtain ⟨j, cur, nxt⟩ := p
    split at hp
    · rename_i hcond
      have hji : j = i ∧ nxt.start - cur.«end» = g := by
        constructor <;> injection hp with h9 <;>
          first
            | exact (VIssue.gapTooSmall.injEq _ _ _ _).mp h9 |>.1
            | exact (VIssue.gapTooSmall.injEq _ _ _ _).mp h9 |>.2
      obtain ⟨rfl, hg⟩ := hji
      have hzip := (List.mk_mem_enum_iff_get?).mp hpmem
      rw [List.get?_zip_eq_some] at hzip
      have hcond2 : ¬ nxt.start < cur.«end» ∧ nxt.start - cur.«end» < MIN_GAP_MS := hcond
      refine ⟨cur, nxt, hzip.1, ?_, hcond2.1, hg.symm, by omega⟩
      rw [← get?_tail_eq]
      exact hzip.2
    · exact absurd hp (by simp)
  · rintro ⟨cur, nxt, hcur, hnxt, hcond, rfl, hgap⟩
    apply List.mem_filterMap.mpr
    refine ⟨(i, cur, nxt), ?_, ?_⟩
    · apply (List.mk_mem_enum_iff_get?).mpr
      rw [List.get?_zip_eq_some]
      exact ⟨hcur, by rw [get?_tail_eq]; exact hnxt⟩
    · rw [if_pos ⟨hcond, hgap⟩]

/-- Evaluation of the Scenario-B collection: exactly one overlap error. -/
theorem concrete_overlap_scenario :
    (validateAllCaptions [⟨"a", 0, 2000, "a"⟩, ⟨"b", 1000, 3000, "b"⟩]).errors
      = [VIssue.overlap 0 1000]
    ∧ (validateAllCaptions [⟨"a", 0, 2000, "a"⟩, ⟨"b", 1000, 3000, "b"⟩]).isValid
      = false := by
  have hcpsA : ¬ cpsAbove (Caption.text ⟨"a", 0, 2000, "a"⟩).length
      (captionDuration ⟨"a", 0, 2000, "a"⟩) 21 := by
    norm_num [cpsAbove, captionDuration, show ("a" : String).length = 1 from rfl]
  have hcpsB : ¬ cpsAbove (Caption.text ⟨"b", 1000, 3000, "b"⟩).length
      (captionDuration ⟨"b", 1000, 3000, "b"⟩) 21 := by
    norm_num [cpsAbove, captionDuration, show ("b" : String).length = 1 from rfl]
  have hEA : captionErrors ⟨"a", 0, 2000, "a"⟩ 0 = [] := by
    simp only [captionErrors, if_neg hcpsA]
    rw [if_neg (by decide), if_neg (by decide), if_neg (by decide)]
    rfl
  have hEB : captionErrors ⟨"b", 1000, 3000, "b"⟩ 1 = [] := by
    simp only [captionErrors, if_neg hcpsB]
    rw [if_neg (by decide), if_neg (by decide), if_neg (by decide)]
    rfl
  have hcross : crossErrors [⟨"a", 0, 2000, "a"⟩, ⟨"b", 1000, 3000, "b"⟩]
      = [VIssue.overlap 0 1000] := by decide
  have herr : (validateAllCaptions [⟨"a", 0, 2000, "a"⟩, ⟨"b", 1000, 3000, "b"⟩]).errors
      = [VIssue.overlap 0 1000] := by
    show ([⟨"a", 0, 2000, "a"⟩, ⟨"b", 1000, 3000, "b"⟩].enum.map
        fun p => captionErrors p.2 p.1).join
      ++ crossErrors [⟨"a", 0, 2000, "a"⟩, ⟨"b", 1000, 3000, "b"⟩]
      = [VIssue.overlap 0 1000]
    rw [show ([(⟨"a", 0, 2000, "a"⟩ : Caption), ⟨"b", 1000, 3000, "b"⟩].enum)
        = [(0, ⟨"a", 0, 2000, "a"⟩), (1, ⟨"b", 1000, 3000, "b"⟩)] from by decide]
    simp only [List.map_cons, List.map_nil, List.join]
    rw [hcross]
    show captionErrors ⟨"a", 0, 2000, "a"⟩ 0 ++ (captionErrors ⟨"b", 1000, 3000, "b"⟩ 1 ++ [])
      ++ [VIssue.overlap 0 1000] = [VIssue.overlap 0 1000]
    rw [hEA, hEB]
    rfl
  refine ⟨herr, ?_⟩
  show ((validateAllCaptions [⟨"a", 0, 2000, "a"⟩, ⟨"b", 1000, 3000, "b"⟩]).errors).isEmpty
    = false
  rw [herr]
  rfl

/-- C8: the cross-segment pass checks exactly the adjacent pairs in display
order (no sorting by time): an overlap Error with magnitude
`end - next.start` appears iff the pair at consecutive display positions
overlaps, a gap Warning appears iff the pair's gap is under 100 ms; and on
the display-ordered collection `[{0,2000,"a"},{1000,3000,"b"}]` the result
is exactly one Error, an overlap of magnitude 1000 ms, with `isValid`
false. -/
theorem validateAllCaptions_cross_pairs :
    (∀ (captions : List Caption) (i : Nat) (m : Int),
      VIssue.overlap i m ∈ (validateAllCaptions captions).errors ↔
        ∃ cur nxt, captions.get? i = some cur ∧ captions.get? (i + 1) = some nxt ∧
          nxt.start < cur.«end» ∧ m = cur.«end» - nxt.start)
    ∧ (∀ (captions : List Caption) (i : Nat) (g : Int),
      VIssue.gapTooSmall i g ∈ (validateAllCaptions captions).warnings ↔
        ∃ cur nxt, captions.get? i = some cur ∧ captions.get? (i + 1) = some nxt ∧
          ¬ nxt.start < cur.«end» ∧ g = nxt.start - cur.«end» ∧ g < MIN_GAP_MS)
    ∧ (validateAllCaptions [⟨"a", 0, 2000, "a"⟩, ⟨"b", 1000, 3000, "b"⟩]).errors
        = [VIssue.overlap 0 1000]
    ∧ (validateAllCaptions [⟨"a", 0, 2000, "a"⟩, ⟨"b", 1000, 3000, "b"⟩]).isValid
        = false := by
  refine ⟨?_, ?_, concrete_overlap_scenario.1, concrete_overlap_scenario.2⟩
  · intro captions i m
    constructor
    · intro h
      have h' : VIssue.overlap i m ∈
          (captions.enum.map fun p => captionErrors p.2 p.1).join
            ++ crossErrors captions := h
      rcases List.mem_append.mp h' with h1 | h2
      · exact absurd h1 (overlap_not_mem_indiv captions i m)
      · exact (mem_crossErrors_iff captions i m).mp h2
    · intro h
      show VIssue.overlap i m ∈
        (captions.enum.map fun p => captionErrors p.2 p.1).join ++ crossErrors captions
      exact List.mem_append.mpr (Or.inr ((mem_crossErrors_iff captions i m).mpr h))
  · intro captions i g
    constructor
    · intro h
      have h' : VIssue.gapTooSmall i g ∈
          (captions.enum.map fun p => captionWarnings p.2 p.1).join
            ++ crossWarnings captions := h
      rcases List.mem_append.mp h' with h1 | h2
      · exact absurd h1 (gap_not_mem_indiv captions i g)
      · exact (mem_crossWarnings_iff captions i g).mp h2
    · intro h
      show VIssue.gapTooSmall i g ∈
        (captions.enum.map fun p => captionWarnings p.2 p.1).join ++ crossWarnings captions
      exact List.mem_append.mpr (Or.inr ((mem_crossWarnings_iff captions i g).mpr h))

theorem digitChar_isDigit : ∀ m, m < 10 → (Nat.digitChar m).isDigit = true := by
  decide

theorem toDigitsCore_all_digit :
    ∀ (f n : Nat) (ds : List Char), (∀ c ∈ ds, c.isDigit = true) →
      ∀ c ∈ Nat.toDigitsCore 10 f n ds, c.isDigit = true := by
  intro f
  induction f with
  | zero =>
    intro n ds hds c hc
    exact hds c hc
  | succ f ih =>
    intro n ds hds c hc
    simp only [Nat.toDigitsCore] at hc
    split at hc
    · rcases List.mem_cons.mp hc with h | h
      · rw [h]
        exact digitChar_isDigit (n % 10) (Nat.mod_lt n (by norm_num))
      · exact hds c h
    · refine ih (n / 10) (Nat.digitChar (n % 10) :: ds) ?_ c hc
      intro x hx
      rcases List.mem_cons.mp hx with h | h
      · rw [h]
        exact digitChar_isDigit (n % 10) (Nat.mod_lt n (by norm_num))
      · exact hds x h

theorem toDigitsCore_append :
    ∀ (f n : Nat) (ds : List Char), ∃ l, Nat.toDigitsCore 10 f n ds = l ++ ds := by
  intro f
  induction f with
  | zero => intro n ds; exact ⟨[], rfl⟩
  | succ f ih =>
    intro n ds
    simp only [Nat.toDigitsCore]
    split
    · exact ⟨[Nat.digitChar (n % 10)], rfl⟩
    · obtain ⟨l, hl⟩ := ih (n / 10) (Nat.digitChar (n % 10) :: ds)
      exact ⟨l ++ [Nat.digitChar (n % 10)], by rw [hl]; simp⟩

theorem digitsN_ne_nil (n : Nat) : digitsN n ≠ [] := by
  simp only [digitsN, Nat.toDigits, Nat.toDigitsCore]
  split
  · simp
  · obtain ⟨l, hl⟩ := toDigitsCore_append n (n / 10) [Nat.digitChar (n % 10)]
    rw [hl]
    simp

theorem digitsN_all_digit (n : Nat) : ∀ c ∈ digitsN n, c.isDigit = true :=
  toDigitsCore_all_digit (n + 1) n [] (by simp)

theorem ws_isDigit_false : ∀ c : Char, c.isWhitespace = true → c.isDigit = false := by
  intro c h
  simp only [Char.isWhitespace, Bool.or_eq_true, decide_eq_true_eq] at h
  rcases h with ((h | h) | h) | h <;> subst h <;> rfl

theorem digit_not_ws (c : Char) (h : c.isDigit = true) : c.isWhitespace = false := by
  rcases hws : c.isWhitespace
  · rfl
  · rw [ws_isDigit_false c hws] at h
    exact Bool.noConfusion h

theorem digit_ne_nl (c : Char) (h : c.isDigit = true) : c ≠ '\n' := by
  intro he
  subst he
  exact absurd h (by decide)

theorem head?_mem (l : List α) (a : α) (h : l.head? = some a) : a ∈ l := by
  cases l with
  | nil => exact Option.noConfusion h
  | cons c cs =>
    have : c = a := by injection h
    rw [← this]
    exact List.mem_cons_self c cs

theorem getLast?_mem (l : List α) (a : α) : l.getLast? = some a → a ∈ l := by
  induction l with
  | nil => intro h; exact Option.noConfusion h
  | cons c cs ih =>
    intro h
    cases cs with
    | nil =>
      have : c = a := by
        rw [List.getLast?_singleton] at h
        injection h
      rw [← this]
      exact List.mem_cons_self c []
    | cons d ds =>
      rw [List.getLast?_cons_cons] at h
      exact List.mem_cons_of_mem c (ih h)

theorem head?_append_left (a b : List α) (ha : a ≠ []) : (a ++ b).head? = a.head? := by
  cases a with
  | nil => exact absurd rfl ha
  | cons c cs => rfl

theorem trimStart_id (l : List Char)
    (h : ∀ c, l.head? = some c → c.isWhitespace = false) : trimStartChars l = l := by
  cases l with
  | nil => rfl
  | cons c cs =>
    simp only [trimStartChars, List.dropWhile_cons]
    rw [h c rfl]
    simp

theorem trim_id (l : List Char)
    (h1 : ∀ c, l.head? = some c → c.isWhitespace = false)
    (h2 : ∀ c, l.getLast? = some c → c.isWhitespace = false) : trimChars l = l := by
  show ((l.dropWhile _).reverse.dropWhile _).reverse = l
  have e1 : l.dropWhile Char.isWhitespace = l := trimStart_id l h1
  rw [e1]
  have e2 : l.reverse.dropWhile Char.isWhitespace = l.reverse := by
    apply trimStart_id
    intro c hc
    rw [List.head?_reverse] at hc
    exact h2 c hc
  rw [e2, List.reverse_reverse]

theorem goodLine_spec (l : List Char) (h : goodLine l = true) :
    l ≠ [] ∧ (∀ c, l.head? = some c → c.isWhitespace = false) ∧
    (∀ c, l.getLast? = some c → c.isWhitespace = false) := by
  simp only [goodLine, Bool.and_eq_true] at h
  obtain ⟨⟨h1, h2⟩, h3⟩ := h
  refine ⟨by simpa using h1, ?_, ?_⟩
  · intro c hc
    rw [hc] at h2
    simpa using h2
  · intro c hc
    rw [hc] at h3
    simpa using h3

theorem textLine_good (t : String) (hg : goodText t) :
    ∀ l ∈ splitBy isNl t.data, goodLineP l := by
  intro l hl
  obtain ⟨h1, h2, h3⟩ := goodLine_spec l (hg l hl)
  refine ⟨h1, ?_, h2, h3⟩
  intro hnl
  have hfalse := splitBy_chunk_mem isNl t.data l '\n' hl hnl
  simp [isNl] at hfalse

theorem digitsN_goodLine (n : Nat) : goodLineP (digitsN n) := by
  refine ⟨digitsN_ne_nil n, ?_, ?_, ?_⟩
  · intro h
    exact digit_ne_nl '\n' (digitsN_all_digit n '\n' h) rfl
  · intro c hc
    exact digit_not_ws c (digitsN_all_digit n c (head?_mem _ c hc))
  · intro c hc
    exact digit_not_ws c (digitsN_all_digit n c (getLast?_mem _ c hc))

theorem mem_padZero_digitsN (w n : Nat) (c : Char) (h : c ∈ padZero w (digitsN n)) :
    c.isDigit = true := by
  simp only [padZero, List.mem_append] at h
  rcases h with h | h
  · rw [List.eq_of_mem_replicate h]
    rfl
  · exact digitsN_all_digit n c h

theorem padZero_ne_nil (w n : Nat) : padZero w (digitsN n) ≠ [] := by
  intro h
  rcases List.append_eq_nil.mp h with ⟨_, h2⟩
  exact digitsN_ne_nil n h2

theorem mem_renderTC (sep : Char) (ms : Nat) (c : Char) (h : c ∈ renderTC sep ms) :
    c.isDigit = true ∨ c = ':' ∨ c = sep := by
  simp only [renderTC, List.mem_append, List.mem_cons] at h
  rcases h with h | h | h | h | h | h | h
  · exact Or.inl (mem_padZero_digitsN _ _ c h)
  · exact Or.inr (Or.inl h)
  · exact Or.inl (mem_padZero_digitsN _ _ c h)
  · exact Or.inr (Or.inl h)
  · exact Or.inl (mem_padZero_digitsN _ _ c h)
  · exact Or.inr (Or.inr h)
  · exact Or.inl (mem_padZero_digitsN _ _ c h)

theorem tsLine_good (sep : Char) (s e : Nat) (hs : s < 360000000) (he : e < 360000000)
    (hsep : sep = ',' ∨ sep = '.') : goodLineP (tsLineChars sep s e) := by
  obtain ⟨a1, a2, b1, b2, c1, c2, d1, d2, d3, heq1, da1, da2, db1, db2, dc1, dc2,
    dd1, dd2, dd3, _, _, _, _⟩ := renderTC_struct sep s hs
  obtain ⟨e1, e2, f1, f2, g1, g2, k1, k2, k3, heq2, de1, de2, df1, df2, dg1, dg2,
    dk1, dk2, dk3, _, _, _, _⟩ := renderTC_struct sep e he
  have hne1 : renderTC sep s ≠ [] := by rw [heq1]; simp
  have hne2 : renderTC sep e ≠ [] := by rw [heq2]; simp
  refine ⟨?_, ?_, ?_, ?_⟩
  · intro hnil
    rcases List.append_eq_nil.mp hnil with ⟨_, h2⟩
    exact hne2 h2
  · intro hnl
    simp only [tsLineChars, List.mem_append] at hnl
    rcases hnl with (h | h) | h
    · rcases mem_renderTC sep s '\n' h with hd | h | h
      · exact digit_ne_nl '\n' hd rfl
      · exact absurd h (by decide)
      · rcases hsep with rfl | rfl <;> exact absurd h (by decide)
    · exact absurd h (by decide)
    · rcases mem_renderTC sep e '\n' h with hd | h | h
      · exact digit_ne_nl '\n' hd rfl
      · exact absurd h (by decide)
      · rcases hsep with rfl | rfl <;> exact absurd h (by decide)
  · intro c hc
    rw [tsLineChars, head?_append_left _ _ (by
        intro hnil
        rcases List.append_eq_nil.mp hnil with ⟨h1, _⟩
        exact hne1 h1),
      head?_append_left _ _ hne1, heq1] at hc
    have : a1 = c := by injection hc
    rw [← this]
    exact digit_not_ws a1 da1
  · intro c hc
    rw [tsLineChars, getLast?_append_of_ne_nil _ _ hne2, heq2] at hc
    have hk : k3 = c := by
      simp only [List.getLast?_cons_cons, List.getLast?_singleton] at hc
      injection hc
    rw [← hk]
    exact digit_not_ws k3 dk3

theorem srtCueBlock_good (i : Nat) (c : Caption) (h0 : 0 ≤ c.start)
    (h1 : c.start < c.«end») (h2 : c.«end» < 360000000) (ht : goodText c.text) :
    goodBlock (srtCueBlock i c) := by
  refine ⟨by simp [srtCueBlock], ?_⟩
  intro ln hln
  simp only [srtCueBlock, List.mem_cons] at hln
  rcases hln with rfl | rfl | hln
  · exact digitsN_goodLine i
  · exact tsLine_good ',' _ _ (by omega) (by omega) (Or.inl rfl)
  · exact textLine_good c.text ht ln hln

theorem vttCueBlock_good (c : Caption) (h0 : 0 ≤ c.start)
    (h1 : c.start < c.«end») (h2 : c.«end» < 360000000) (ht : goodText c.text) :
    goodBlock (vttCueBlock c) := by
  refine ⟨by simp [vttCueBlock], ?_⟩
  intro ln hln
  simp only [vttCueBlock, List.mem_cons] at hln
  rcases hln with rfl | hln
  · exact tsLine_good '.' _ _ (by omega) (by omega) (Or.inr rfl)
  · exact textLine_good c.text ht ln hln

theorem webvtt_good : goodBlock ["WEBVTT".data] := by
  refine ⟨by simp, ?_⟩
  intro ln hln
  simp only [List.mem_singleton] at hln
  subst hln
  refine ⟨by decide, by decide, ?_, ?_⟩
  · intro c hc
    have : 'W' = c := by injection hc
    rw [← this]
    rfl
  · intro c hc
    have : 'T' = c := by
      simp only [show ("WEBVTT".data) = ['W', 'E', 'B', 'V', 'T', 'T'] from rfl,
        List.getLast?_cons_cons, List.getLast?_singleton] at hc
      injection hc
    rw [← this]
    rfl

theorem srtBlocks_good (captions : List Caption)
    (hg : ∀ c ∈ captions, wireSafe c) :
    ∀ i, ∀ b ∈ srtBlocks i captions, goodBlock b := by
  induction captions with
  | nil =>
    intro i b hb
    simp [srtBlocks] at hb
  | cons c cs ih =>
    intro i b hb
    simp only [srtBlocks, List.mem_cons] at hb
    rcases hb with rfl | hb
    · obtain ⟨p0, p1, p2, p3⟩ := hg c (List.mem_cons_self c cs)
      exact srtCueBlock_good i c p0 p1 p2 p3
    · exact ih (fun x hx => hg x (List.mem_cons_of_mem c hx)) (i + 1) b hb

theorem formatBlocks_good (captions : List Caption) (format : CaptionFormat)
    (hg : ∀ c ∈ captions, wireSafe c) :
    ∀ b ∈ formatBlocks captions format, goodBlock b := by
  cases format with
  | SRT => exact srtBlocks_good captions hg 1
  | VTT =>
    intro b hb
    simp only [formatBlocks, List.cons_append, List.nil_append, List.mem_cons] at hb
    rcases hb with rfl | hb
    · exact webvtt_good
    · rcases List.mem_map.mp hb with ⟨c, hc, rfl⟩
      obtain ⟨p0, p1, p2, p3⟩ := hg c hc
      exact vttCueBlock_good c p0 p1 p2 p3

theorem formatBlocks_ne_nil (captions : List Caption) (hne : captions ≠ [])
    (format : CaptionFormat) : formatBlocks captions format ≠ [] := by
  cases format with
  | SRT =>
    cases captions with
    | nil => exact absurd rfl hne
    | cons c cs => simp [formatBlocks, srtBlocks]
  | VTT => simp [formatBlocks]

theorem allLines_mem (blocks : List (List (List Char)))
    (hg : ∀ b ∈ blocks, goodBlock b) :
    ∀ ln ∈ joinWith [[]] blocks, ln = [] ∨ goodLineP ln := by
  intro ln h
  rcases joinWith_mem [[]] blocks ln h with h | ⟨b, hb, hln⟩
  · left
    simpa using h
  · right
    exact (hg b hb).2 ln hln

theorem allLines_no_nl (blocks : List (List (List Char)))
    (hg : ∀ b ∈ blocks, goodBlock b) :
    ∀ ln ∈ joinWith [[]] blocks, ∀ c ∈ ln, isNl c = false := by
  intro ln hln c hc
  rcases allLines_mem blocks hg ln hln with rfl | hgood
  · exact absurd hc (List.not_mem_nil c)
  · have hcne : c ≠ '\n' := fun he => hgood.2.1 (he ▸ hc)
    simp [isNl, hcne]

theorem allLines_ne_nil (blocks : List (List (List Char))) (hne : blocks ≠ [])
    (hg : ∀ b ∈ blocks, goodBlock b) : joinWith [[]] blocks ≠ [] := by
  obtain ⟨b0, bs, rfl⟩ : ∃ b0 bs, blocks = b0 :: bs := by
    cases blocks with
    | nil => exact absurd rfl hne
    | cons b bs => exact ⟨b, bs, rfl⟩
  obtain ⟨ln0, lns, rfl⟩ : ∃ ln0 lns, b0 = ln0 :: lns := by
    rcases hb0 : b0 with _ | ⟨ln, lns⟩
    · exact absurd rfl (hb0 ▸ (hg b0 (List.mem_cons_self b0 bs)).1)
    · exact ⟨ln, lns, rfl⟩
  rw [joinWith_cons_cons]
  simp

theorem splitNl_allLines (blocks : List (List (List Char))) (hne : blocks ≠ [])
    (hg : ∀ b ∈ blocks, goodBlock b) :
    splitBy isNl (joinWith ['\n'] (joinWith [[]] blocks)) = joinWith [[]] blocks :=
  splitBy_joinWith isNl '\n' (by simp [isNl]) _ (allLines_ne_nil blocks hne hg)
    (allLines_no_nl blocks hg)

theorem allLines_getLast (blocks : List (List (List Char))) (hne : blocks ≠ [])
    (hg : ∀ b ∈ blocks, goodBlock b) :
    ∃ lastLn, (joinWith [[]] blocks).getLast? = some lastLn ∧ goodLineP lastLn := by
  have hlastB := List.getLast?_eq_getLast blocks hne
  have hmemB : blocks.getLast hne ∈ blocks := List.getLast_mem hne
  have hgB := hg _ hmemB
  have hdecomp : blocks.dropLast ++ [blocks.getLast hne] = blocks :=
    List.dropLast_append_getLast hne
  obtain ⟨lastLn, hlastLn⟩ : ∃ lastLn, (blocks.getLast hne).getLast? = some lastLn :=
    ⟨_, List.getLast?_eq_getLast _ hgB.1⟩
  refine ⟨lastLn, ?_, hgB.2 lastLn (getLast?_mem _ lastLn hlastLn)⟩
  rw [← hdecomp, joinWith_getLast? [[]] blocks.dropLast _ hgB.1]
  exact hlastLn

theorem serialized_head (blocks : List (List (List Char))) (hne : blocks ≠ [])
    (hg : ∀ b ∈ blocks, goodBlock b) :
    ∀ c, (joinWith ['\n'] (joinWith [[]] blocks)).head? = some c →
      c.isWhitespace = false := by
  intro c hc
  obtain ⟨b0, bs, rfl⟩ : ∃ b0 bs, blocks = b0 :: bs := by
    cases blocks with
    | nil => exact absurd rfl hne
    | cons b bs => exact ⟨b, bs, rfl⟩
  obtain ⟨ln0, lns, rfl⟩ : ∃ ln0 lns, b0 = ln0 :: lns := by
    rcases hb0 : b0 with _ | ⟨ln, lns⟩
    · exact absurd rfl (hb0 ▸ (hg b0 (List.mem_cons_self b0 bs)).1)
    · exact ⟨ln, lns, rfl⟩
  have hgood : goodLineP ln0 :=
    (hg (ln0 :: lns) (List.mem_cons_self _ _)).2 ln0 (List.mem_cons_self _ _)
  rw [joinWith_cons_cons] at hc
  obtain ⟨c0, cs0, rfl⟩ : ∃ c0 cs0, ln0 = c0 :: cs0 := by
    rcases hln0 : ln0 with _ | ⟨x, xs⟩
    · exact absurd rfl (hln0 ▸ hgood.1)
    · exact ⟨x, xs, rfl⟩
  rw [joinWith_cons_cons] at hc
  have : c0 = c := by injection hc
  rw [← this]
  exact hgood.2.2.1 c0 rfl

theorem serialized_getLast (blocks : List (List (List Char))) (hne : blocks ≠ [])
    (hg : ∀ b ∈ blocks, goodBlock b) :
    ∀ c, (joinWith ['\n'] (joinWith [[]] blocks)).getLast? = some c →
      c.isWhitespace = false := by
  intro c hc
  obtain ⟨lastLn, hlast, hgood⟩ := allLines_getLast blocks hne hg
  have hdecomp : (joinWith [[]] blocks).dropLast ++ [lastLn] = joinWith [[]] blocks :=
    List.dropLast_append_getLast? lastLn hlast
  rw [← hdecomp, joinWith_getLast? ['\n'] _ lastLn hgood.1] at hc
  exact hgood.2.2.2 c hc

/-- Normalization is the identity on serialized output: every line already
lacks leading whitespace and the whole string is trimmed. -/
theorem normalize_id (blocks : List (List (List Char))) (hne : blocks ≠ [])
    (hg : ∀ b ∈ blocks, goodBlock b) :
    normalizeChars (joinWith ['\n'] (joinWith [[]] blocks)) =
      joinWith ['\n'] (joinWith [[]] blocks) := by
  have h1 := splitNl_allLines blocks hne hg
  have h2 : (joinWith [[]] blocks).map trimStartChars = joinWith [[]] blocks := by
    have := List.map_congr_left (l := joinWith [[]] blocks)
      (f := trimStartChars) (g := id) ?_
    · rw [this, List.map_id]
    · intro ln hln
      rcases allLines_mem blocks hg ln hln with rfl | hgood
      · rfl
      · exact trimStart_id ln hgood.2.2.1
  rw [normalizeChars, h1, h2]
  exact trim_id _ (serialized_head blocks hne hg) (serialized_getLast blocks hne hg)

theorem renderTC_length (sep : Char) (ms : Nat) (h : ms < 360000000) :
    (renderTC sep ms).length = 12 := by
  obtain ⟨a1, a2, b1, b2, c1, c2, d1, d2, d3, heq, _⟩ := renderTC_struct sep ms h
  rw [heq]
  rfl

theorem parseTsLine_tsLineChars (sep : Char) (s e : Nat) (hs : s < 360000000)
    (he : e < 360000000) (hsep : sep = ',' ∨ sep = '.') :
    parseTsLineChars (tsLineChars sep s e) = some (s, e) := by
  have hlen1 := renderTC_length sep s hs
  have hdrop12 : (tsLineChars sep s e).drop 12 = " --> ".data ++ renderTC sep e := by
    rw [tsLineChars, List.append_assoc, ← hlen1, List.drop_left]
  have htake5 : (" --> ".data ++ renderTC sep e).take 5 = " --> ".data := by
    rw [show (5 : Nat) = (" --> ".data).length from rfl, List.take_left]
  have hdrop17 : (tsLineChars sep s e).drop 17 = renderTC sep e := by
    have hsplit : (tsLineChars sep s e).drop 17 = ((tsLineChars sep s e).drop 12).drop 5 := by
      rw [List.drop_drop]
    rw [hsplit, hdrop12, show (5 : Nat) = (" --> ".data).length from rfl, List.drop_left]
  have hlen : (tsLineChars sep s e).length = 29 := by
    simp [tsLineChars, List.length_append, hlen1, renderTC_length sep e he]
  have hm1 : matchTCAt (tsLineChars sep s e)
      = some (s / 3600000, s % 3600000 / 60000, s % 60000 / 1000, s % 1000) := by
    rw [tsLineChars, List.append_assoc]
    exact matchTCAt_renderTC sep s _ hs hsep
  have hm2 : matchTCAt ((tsLineChars sep s e).drop 17)
      = some (e / 3600000, e % 3600000 / 60000, e % 60000 / 1000, e % 1000) := by
    have := matchTCAt_renderTC sep e [] he hsep
    rw [List.append_nil] at this
    rw [hdrop17]
    exact this
  simp only [parseTsLineChars, hm1, hm2, hdrop12, htake5, hlen, if_pos, if_true]
  rw [tc_combine s, tc_combine e]

theorem parseCueBlock_srt (i : Nat) (c : Caption) (h0 : 0 ≤ c.start)
    (h1 : c.start < c.«end») (h2 : c.«end» < 360000000) :
    parseCueBlock (srtCueBlock i c) = some (c.start.toNat, c.«end».toNat, c.text.data) := by
  have hdl : isDigitLine (digitsN i) = true := by
    simp only [isDigitLine, Bool.and_eq_true, Bool.not_eq_true', List.all_eq_true]
    constructor
    · rcases hd : digitsN i with _ | ⟨x, xs⟩
      · exact absurd hd (digitsN_ne_nil i)
      · rfl
    · exact digitsN_all_digit i
  have hts : parseTsLineChars (tsLineChars ',' c.start.toNat c.«end».toNat)
      = some (c.start.toNat, c.«end».toNat) :=
    parseTsLine_tsLineChars ',' _ _ (by omega) (by omega) (Or.inl rfl)
  rcases hsp : splitBy isNl c.text.data with _ | ⟨t0, ts'⟩
  · exact absurd hsp (splitBy_ne_nil isNl c.text.data)
  · have hjoin : joinWith ['\n'] (t0 :: ts') = c.text.data := by
      rw [← hsp]
      exact joinWith_splitBy isNl '\n' (by simp [isNl]) c.text.data
    simp only [parseCueBlock, srtCueBlock, hsp, hdl, if_true, hts, hjoin]

theorem tsLine_not_digitLine (sep : Char) (s e : Nat) (hs : s < 360000000) :
    isDigitLine (tsLineChars sep s e) = false := by
  obtain ⟨a1, a2, b1, b2, c1, c2, d1, d2, d3, heq, _⟩ := renderTC_struct sep s hs
  have hcolon : ':' ∈ tsLineChars sep s e := by
    simp only [tsLineChars, List.mem_append]
    left; left
    rw [heq]
    simp
  have hall : (tsLineChars sep s e).all Char.isDigit = false := by
    rcases hv : (tsLineChars sep s e).all Char.isDigit
    · rfl
    · exact absurd (List.all_eq_true.mp hv ':' hcolon) (by decide)
  simp [isDigitLine, hall]

theorem parseCueBlock_vtt (c : Caption) (h0 : 0 ≤ c.start)
    (h1 : c.start < c.«end») (h2 : c.«end» < 360000000) :
    parseCueBlock (vttCueBlock c) = some (c.start.toNat, c.«end».toNat, c.text.data) := by
  have hdl : isDigitLine (tsLineChars '.' c.start.toNat c.«end».toNat) = false :=
    tsLine_not_digitLine '.' _ _ (by omega)
  have hts : parseTsLineChars (tsLineChars '.' c.start.toNat c.«end».toNat)
      = some (c.start.toNat, c.«end».toNat) :=
    parseTsLine_tsLineChars '.' _ _ (by omega) (by omega) (Or.inr rfl)
  rcases hsp : splitBy isNl c.text.data with _ | ⟨t0, ts'⟩
  · exact absurd hsp (splitBy_ne_nil isNl c.text.data)
  · have hjoin : joinWith ['\n'] (t0 :: ts') = c.text.data := by
      rw [← hsp]
      exact joinWith_splitBy isNl '\n' (by simp [isNl]) c.text.data
    simp only [parseCueBlock, vttCueBlock, hsp, hdl, if_false, Bool.false_eq_true, hts, hjoin]

theorem isMetaBlock_digit_head (l : List Char) (rest : List (List Char)) (hne : l ≠ [])
    (hd : ∀ c, l.head? = some c → c.isDigit = true) : isMetaBlock (l :: rest) = false := by
  simp only [isMetaBlock, decide_eq_false_iff_not]
  intro heq
  cases l with
  | nil => exact hne rfl
  | cons c cs =>
    have hc : c = 'W' := by
      have htake : (c :: cs).take 6 = c :: cs.take 5 := rfl
      rw [htake] at heq
      injection heq
    have := hd c rfl
    rw [hc] at this
    exact absurd this (by decide)

theorem srtCueBlock_not_meta (i : Nat) (c : Caption) :
    isMetaBlock (srtCueBlock i c) = false := by
  apply isMetaBlock_digit_head _ _ (digitsN_ne_nil i)
  intro x hx
  exact digitsN_all_digit i x (head?_mem _ x hx)

theorem vttCueBlock_not_meta (c : Caption) (h0 : 0 ≤ c.start) (h1 : c.start < c.«end»)
    (h2 : c.«end» < 360000000) : isMetaBlock (vttCueBlock c) = false := by
  obtain ⟨a1, a2, b1, b2, c1, c2, d1, d2, d3, heq, da1, _⟩ :=
    renderTC_struct '.' c.start.toNat (by omega)
  apply isMetaBlock_digit_head
  · intro hnil
    rcases List.append_eq_nil.mp hnil with ⟨hleft, _⟩
    rcases List.append_eq_nil.mp hleft with ⟨hl, _⟩
    rw [heq] at hl
    exact List.noConfusion hl
  · intro x hx
    rw [tsLineChars, head?_append_left _ _ ?hne1, head?_append_left _ _ ?hne2, heq] at hx
    case hne2 =>
      rw [heq]
      simp
    case hne1 =>
      intro hnil
      rcases List.append_eq_nil.mp hnil with ⟨hl, _⟩
      rw [heq] at hl
      exact List.noConfusion hl
    have : a1 = x := by injection hx
    rw [← this]
    exact da1

theorem mapM_srtBlocks (captions : List Caption) (hg : ∀ c ∈ captions, wireSafe c) :
    ∀ i, (srtBlocks i captions).mapM parseCueBlock
      = some (captions.map fun c => (c.start.toNat, c.«end».toNat, c.text.data)) := by
  induction captions with
  | nil => intro i; rfl
  | cons c cs ih =>
    intro i
    obtain ⟨p0, p1, p2, _⟩ := hg c (List.mem_cons_self c cs)
    simp only [srtBlocks, List.mapM_cons, parseCueBlock_srt i c p0 p1 p2,
      ih (fun x hx => hg x (List.mem_cons_of_mem c hx)) (i + 1), List.map_cons]
    rfl

theorem mapM_vttBlocks (captions : List Caption) (hg : ∀ c ∈ captions, wireSafe c) :
    (captions.map vttCueBlock).mapM parseCueBlock
      = some (captions.map fun c => (c.start.toNat, c.«end».toNat, c.text.data)) := by
  induction captions with
  | nil => rfl
  | cons c cs ih =>
    obtain ⟨p0, p1, p2, _⟩ := hg c (List.mem_cons_self c cs)
    simp only [List.map_cons, List.mapM_cons, parseCueBlock_vtt c p0 p1 p2,
      ih (fun x hx => hg x (List.mem_cons_of_mem c hx))]
    rfl

theorem filter_nonempty_blocks (blocks : List (List (List Char)))
    (hg : ∀ b ∈ blocks, goodBlock b) :
    blocks.filter (fun b => !b.isEmpty) = blocks := by
  apply List.filter_eq_self.mpr
  intro b hb
  rcases hbs : b with _ | ⟨x, xs⟩
  · exact absurd rfl (hbs ▸ (hg b hb).1)
  · rfl

theorem splitEmpty_allLines (blocks : List (List (List Char))) (hne : blocks ≠ [])
    (hg : ∀ b ∈ blocks, goodBlock b) :
    splitBy (fun ln => ln.isEmpty) (joinWith [[]] blocks) = blocks := by
  apply splitBy_joinWith _ ([] : List Char) (by simp) blocks hne
  intro b hb ln hln
  rcases hl : ln with _ | ⟨x, xs⟩
  · exact absurd rfl (hl ▸ ((hg b hb).2 ln hln).1)
  · rfl

theorem cueBlocks_of_formatBlocks (captions : List Caption)
    (hg : ∀ c ∈ captions, wireSafe c) (format : CaptionFormat) :
    (formatBlocks captions format).filter (fun b => !isMetaBlock b)
      = (match format with
         | CaptionFormat.SRT => srtBlocks 1 captions
         | CaptionFormat.VTT => captions.map vttCueBlock) := by
  cases format with
  | SRT =>
    apply List.filter_eq_self.mpr
    intro b hb
    -- every SRT block is a cue block
    have : ∀ i, ∀ b ∈ srtBlocks i captions, isMetaBlock b = false := by
      clear hb hg
      induction captions with
      | nil => intro i b hb; simp [srtBlocks] at hb
      | cons c cs ih =>
        intro i b hb
        simp only [srtBlocks, List.mem_cons] at hb
        rcases hb with rfl | hb
        · exact srtCueBlock_not_meta i c
        · exact ih i.succ b hb
    rw [this 1 b hb]
    rfl
  | VTT =>
    show (([["WEBVTT".data]] ++ captions.map vttCueBlock).filter _) = _
    rw [List.filter_append]
    have hmeta : ([["WEBVTT".data]] : List (List (List Char))).filter
        (fun b => !isMetaBlock b) = [] := by
      simp [isMetaBlock]
    rw [hmeta, List.nil_append]
    apply List.filter_eq_self.mpr
    intro b hb
    rcases List.mem_map.mp hb with ⟨c, hc, rfl⟩
    obtain ⟨p0, p1, p2, _⟩ := hg c hc
    rw [vttCueBlock_not_meta c p0 p1 p2]
    rfl

theorem parseSync_serialize (captions : List Caption) (hne : captions ≠ [])
    (hg : ∀ c ∈ captions, wireSafe c) (format : CaptionFormat) :
    parseSyncModel (joinWith ['\n'] (joinWith [[]] (formatBlocks captions format)))
      = some (captions.map fun c => (c.start.toNat, c.«end».toNat, c.text.data)) := by
  have hgb := formatBlocks_good captions format hg
  have hbne := formatBlocks_ne_nil captions hne format
  have hmapM : ((formatBlocks captions format).filter (fun b => !isMetaBlock b)).mapM
      parseCueBlock
      = some (captions.map fun c => (c.start.toNat, c.«end».toNat, c.text.data)) := by
    rw [cueBlocks_of_formatBlocks captions hg format]
    cases format with
    | SRT => exact mapM_srtBlocks captions hg 1
    | VTT => exact mapM_vttBlocks captions hg
  have hcues_ne : (captions.map
      fun c => (c.start.toNat, c.«end».toNat, c.text.data)).isEmpty = false := by
    cases captions with
    | nil => exact absurd rfl hne
    | cons c cs => rfl
  simp only [parseSyncModel, splitNl_allLines _ hbne hgb,
    splitEmpty_allLines _ hbne hgb, filter_nonempty_blocks _ hgb, hmapM, hcues_ne]
  rfl

theorem enumFrom_map_stripId (now : Nat) :
    ∀ (n : Nat) (l : List (Nat × Nat × List Char)),
      ((List.enumFrom n l).map (fun p =>
        ({ id := "caption-" ++ Nat.repr now ++ "-" ++ Nat.repr p.1,
           start := (p.2.1 : Int), «end» := (p.2.2.1 : Int),
           text := String.mk p.2.2.2 } : Caption))).map stripId
      = l.map (fun trip => ((trip.1 : Int), (trip.2.1 : Int), String.mk trip.2.2)) := by
  intro n l
  induction l generalizing n with
  | nil => rfl
  | cons t ts ih => simp [List.enumFrom, stripId, ih]

/-- C2 (amended): for every non-empty collection of non-overlapping segments
with `0 ≤ start < end`, `end` below 100 hours, and wire-safe text (each text
line nonempty — a blank line is the format's reserved cue separator — with
no leading or trailing whitespace, since the parser strips leading
whitespace per line and trims the file ends), `parseCaptions` after
`serializeCaptions` yields a collection of the same length with the same
`start`, `end` and `text` at every position, for both supported formats;
only the generated ids differ. -/
theorem parse_serialize_roundtrip (captions : List Caption) (hne : captions ≠ [])
    (hnov : List.Pairwise (fun a b => a.«end» ≤ b.start) captions)
    (hg : ∀ c ∈ captions, wireSafe c) (now : Nat) (format : CaptionFormat) :
    (parseCaptions now (serializeCaptions captions format)).map (List.map stripId)
      = some (captions.map stripId) := by
  have hps := parseSync_serialize captions hne hg format
  have hnorm := normalize_id (formatBlocks captions format)
    (formatBlocks_ne_nil captions hne format) (formatBlocks_good captions format hg)
  have hdata : (serializeCaptions captions format).data
      = joinWith ['\n'] (joinWith [[]] (formatBlocks captions format)) := rfl
  rw [parseCaptions, hdata, hnorm, hps]
  show some _ = some _
  congr 1
  rw [show (List.enum = fun l : List (Nat × Nat × List Char) => List.enumFrom 0 l)
    from rfl]
  rw [enumFrom_map_stripId now 0, List.map_map]
  apply List.map_congr_left
  intro c hc
  obtain ⟨p0, p1, _, _⟩ := hg c hc
  show ((c.start.toNat : Int), (c.«end».toNat : Int), String.mk c.text.data) = stripId c
  rw [stripId, Int.toNat_of_nonneg p0, Int.toNat_of_nonneg (by omega)]

/-- C2 witness: the amended round-trip at the concrete wire-safe collection
`[{0, 1500, "hi"}, {1600, 3000, "yo"}]` for both formats. -/
theorem parse_serialize_roundtrip_witness :
    (([⟨"a", 0, 1500, "hi"⟩, ⟨"b", 1600, 3000, "yo"⟩] : List Caption) ≠ []) ∧
    (∀ c ∈ ([⟨"a", 0, 1500, "hi"⟩, ⟨"b", 1600, 3000, "yo"⟩] : List Caption), wireSafe c) ∧
    (parseCaptions 5 (serializeCaptions [⟨"a", 0, 1500, "hi"⟩, ⟨"b", 1600, 3000, "yo"⟩]
        CaptionFormat.SRT)).map (List.map stripId)
      = some ([⟨"a", 0, 1500, "hi"⟩, ⟨"b", 1600, 3000, "yo"⟩].map stripId) ∧
    (parseCaptions 5 (serializeCaptions [⟨"a", 0, 1500, "hi"⟩, ⟨"b", 1600, 3000, "yo"⟩]
        CaptionFormat.VTT)).map (List.map stripId)
      = some ([⟨"a", 0, 1500, "hi"⟩, ⟨"b", 1600, 3000, "yo"⟩].map stripId) :=
  ⟨by decide, by decide,
   parse_serialize_roundtrip _ (by decide) (by decide) (by decide) 5 CaptionFormat.SRT,
   parse_serialize_roundtrip _ (by decide) (by decide) (by decide) 5 CaptionFormat.VTT⟩

/-- C2 counterexample: a segment whose text has a leading space — not one of
the format's reserved separators — does not round-trip as the claim states:
`parseCaptions` strips leading whitespace from every line, so the text comes
back as `"hi"`, not `" hi"`. -/
theorem roundtrip_leading_whitespace_counterexample :
    (parseCaptions 0 (serializeCaptions [⟨"c1", 0, 1500, " hi"⟩] CaptionFormat.SRT)).map
        (List.map stripId)
      = some [((0 : Int), (1500 : Int), "hi")] ∧
    (" hi" : String) ≠ "hi" := by
  constructor <;> decide
